import Mathlib

/-!
Verification model of razorback's tagged time-series algebra (the `signalset`
module: `Tags`, `SyncSignal`, `SignalSet`, `Inventory`).

The repository ships only the reference walkthrough notebook
(`docs/source/tutorials/handling-time-series.ipynb`); the `signalset` module
itself is not part of the sources.  Every operation below is therefore
modelled from the specification, cross-checked against the concrete inputs
and outputs shown in the notebook.  Times are seconds (exact rationals),
sampling rates are Hz (exact rationals); a run's closed interval is
`[start, start + (size - 1) / rate]`.
-/

section

attribute [local semireducible] Rat.add Rat.mul Rat.sub Rat.inv

namespace Razorback

/-- Error kinds of the signal algebra (spec section 7): `TagMismatch`,
`OverlapError`, `RateMismatch`, `AlignmentMismatch`, `ShapeError`,
`UnknownTag`, `TagCollision`. -/
inductive SigError where
  | tagMismatch
  | overlapError
  | rateMismatch
  | alignmentMismatch
  | shapeError
  | unknownTag
  | tagCollision
  deriving DecidableEq

/-- Modelled from the spec: a `SyncSignal` is one homogeneously-sampled
multichannel block: fixed positive sampling rate, fixed start time, fixed
sample count (at least 1), all channels sharing these.  `data c k` is the
value of channel `c` at sample index `k` (indices outside
`[0, nb_ch) × [0, size)` are irrelevant junk). -/
structure SyncSignal where
  nb_ch : ℕ
  size : ℕ
  sampling_rate : ℚ
  start : ℚ
  data : ℕ → ℕ → ℚ
  rate_pos : 0 < sampling_rate
  size_pos : 0 < size

namespace SyncSignal

/-- Time of the sample at index `k`: `start + k / rate`. -/
def tIdx (s : SyncSignal) (k : ℕ) : ℚ := s.start + (k : ℚ) / s.sampling_rate

/-- Stop time of a run: `start + (size - 1) / rate` (spec section 3). -/
def stopT (s : SyncSignal) : ℚ := s.start + ((s.size : ℚ) - 1) / s.sampling_rate

/-- Closed-interval overlap of two runs: `[a.start, a.stop]` meets
`[b.start, b.stop]`. -/
def overlapsT (a b : SyncSignal) : Prop :=
  max a.start b.start ≤ min a.stopT b.stopT

instance (a b : SyncSignal) : Decidable (overlapsT a b) := by
  unfold overlapsT
  exact inferInstance

/-- First sample index at or after time `t0`, clamped to `[0, size]`. -/
def sliceLo (s : SyncSignal) (t0 : ℚ) : ℕ :=
  (min (s.size : ℤ) (max 0 ⌈(t0 - s.start) * s.sampling_rate⌉)).toNat

/-- One past the last sample index at or before time `t1`, clamped to
`[0, size]`. -/
def sliceHi (s : SyncSignal) (t1 : ℚ) : ℕ :=
  (min (s.size : ℤ) (max 0 (⌊(t1 - s.start) * s.sampling_rate⌋ + 1))).toNat

/-- Modelled from the spec: `slice_time(t0, t1)` returns the sub-block of the
samples lying in the closed window `[t0, t1]`, sample-index exact, or `none`
when no sample falls in the window. -/
def slice_time (s : SyncSignal) (t0 t1 : ℚ) : Option SyncSignal :=
  let i0 : ℕ := s.sliceLo t0
  let i1 : ℕ := s.sliceHi t1
  if h : i0 < i1 then
    some { nb_ch := s.nb_ch
           size := i1 - i0
           sampling_rate := s.sampling_rate
           start := s.tIdx i0
           data := fun c k => s.data c (i0 + k)
           rate_pos := s.rate_pos
           size_pos := by omega }
  else none

/-- Modelled from the spec: `exclude_time(t0, t1)` removes the window
`[t0, t1]`, splitting into a leading and/or trailing remainder.  Following
the reference walkthrough (where excluding `[50, 200]` leaves remainders
stopping exactly at `50` and starting exactly at `200`), the remainders are
the closed windows `[start, t0]` and `[t1, stop]`. -/
def exclude_time (s : SyncSignal) (t0 t1 : ℚ) : List SyncSignal :=
  (slice_time s s.start t0).toList ++ (slice_time s t1 s.stopT).toList

/-- Modelled from the spec: `concat_channels` requires identical sampling
rate (else `RateMismatch`) and identical start and sample count (else
`AlignmentMismatch`), and stacks the two channel axes. -/
def concat_channels (a b : SyncSignal) : Except SigError SyncSignal :=
  if a.sampling_rate = b.sampling_rate then
    if a.start = b.start ∧ a.size = b.size then
      .ok { nb_ch := a.nb_ch + b.nb_ch
            size := a.size
            sampling_rate := a.sampling_rate
            start := a.start
            data := fun c k => if c < a.nb_ch then a.data c k else b.data (c - a.nb_ch) k
            rate_pos := a.rate_pos
            size_pos := a.size_pos }
    else .error .alignmentMismatch
  else .error .rateMismatch

/-- Modelled from the spec: `intersect_channels` requires identical rate,
slices both operands to the overlapping time window (sample-index exact) and
concatenates the channels; `none` if the rates differ, the intervals do not
overlap, or the two sample grids do not agree on the window. -/
def intersect_channels (a b : SyncSignal) : Option SyncSignal :=
  if a.sampling_rate = b.sampling_rate then
    match slice_time a b.start b.stopT, slice_time b a.start a.stopT with
    | some x, some y =>
      match concat_channels x y with
      | .ok z => some z
      | .error _ => none
    | _, _ => none
  else none

end SyncSignal

/-- Modelled from the spec: `Tags` is an ordered name-to-channel-index-group
registry over a channel axis of `nb_ch` channels. -/
structure Tags where
  nb_ch : ℕ
  entries : List (String × List ℕ)
  deriving DecidableEq

namespace Tags

/-- Tag names of a registry, in registry order. -/
def names (t : Tags) : List String := t.entries.map Prod.fst

/-- Modelled from the spec: `lookup(name)` returns the ordered index tuple
bound to `name`, or nothing when the name is absent. -/
def lookup (t : Tags) (n : String) : Option (List ℕ) := t.entries.lookup n

/-- Modelled from the spec: `union` merges two registries, remapping the
second one's indices past the first one's channel axis; it fails with
`TagCollision` when a name is defined on both sides. -/
def union (a b : Tags) : Except SigError Tags :=
  if a.names.any (fun n => b.names.contains n) then .error .tagCollision
  else
    .ok { nb_ch := a.nb_ch + b.nb_ch
          entries := a.entries ++ b.entries.map (fun p => (p.1, p.2.map (· + a.nb_ch))) }

end Tags

/-- Modelled from the spec: a `SignalSet` binds a tag registry to an ordered
sequence of `SyncSignal` runs. -/
structure SignalSet where
  tags : Tags
  signals : List SyncSignal

namespace SignalSet

/-- Number of channels (the tag registry's channel axis). -/
def nb_channels (S : SignalSet) : ℕ := S.tags.nb_ch

/-- Number of runs. -/
def nb_runs (S : SignalSet) : ℕ := S.signals.length

/-- Per-run sampling rates, run order preserved. -/
def sampling_rates (S : SignalSet) : List ℚ := S.signals.map (·.sampling_rate)

/-- Per-run start times, run order preserved. -/
def starts (S : SignalSet) : List ℚ := S.signals.map (·.start)

/-- Per-run stop times, run order preserved. -/
def stops (S : SignalSet) : List ℚ := S.signals.map SyncSignal.stopT

/-- Per-run sample counts, run order preserved. -/
def sizes (S : SignalSet) : List ℕ := S.signals.map (·.size)

/-- Metadata profile of the run sequence: one `(rate, start, stop, size)`
tuple per run, run order preserved. -/
def profile (S : SignalSet) : List (ℚ × ℚ × ℚ × ℕ) :=
  S.signals.map (fun r => (r.sampling_rate, r.start, r.stopT, r.size))

/-- Run ordering by start time, used by the operations that produce
time-sorted results. -/
def byStart (a b : SyncSignal) : Prop := a.start ≤ b.start

instance : DecidableRel byStart := by
  unfold byStart
  exact fun a b => inferInstance

instance : IsTotal SyncSignal byStart := ⟨fun a b => le_total a.start b.start⟩

instance : IsTrans SyncSignal byStart := ⟨fun _ _ _ h1 h2 => le_trans h1 h2⟩

/-- Boolean check that no two runs of the list overlap in time. -/
def disjointB : List SyncSignal → Bool
  | [] => true
  | r :: rs => (rs.all fun u => !decide (r.overlapsT u)) && disjointB rs

/-- Modelled from the spec: `join` requires equal tag registries (else
`TagMismatch`) and no two runs, one from each side or within a side,
overlapping in time (else `OverlapError`); the result keeps the common tags
and holds the union of the two run sequences sorted by start time. -/
def join (a b : SignalSet) : Except SigError SignalSet :=
  if a.tags = b.tags then
    if disjointB (a.signals ++ b.signals) then
      .ok ⟨a.tags, List.insertionSort byStart (a.signals ++ b.signals)⟩
    else .error .overlapError
  else .error .tagMismatch

/-- Modelled from the spec: `extract_t(t0, t1, exclude)` either narrows every
run to the window `[t0, t1]` (runs producing nothing are dropped) or, with
`exclude = true`, removes the window from every run (0 to 2 remainders per
run, inserted in place). -/
def extract_t (S : SignalSet) (t0 t1 : ℚ) (exclude : Bool) : SignalSet :=
  if exclude then
    ⟨S.tags, (S.signals.map (fun r => r.exclude_time t0 t1)).flatten⟩
  else
    ⟨S.tags, S.signals.filterMap (fun r => r.slice_time t0 t1)⟩

/-- Modelled from the spec: `select_runs(mask)` keeps the runs at `true`
positions, in original order; a length mismatch fails with `ShapeError`. -/
def select_runs (S : SignalSet) (mask : List Bool) : Except SigError SignalSet :=
  if mask.length = S.signals.length then
    .ok ⟨S.tags, (S.signals.zip mask).filterMap (fun p => if p.2 then some p.1 else none)⟩
  else .error .shapeError

/-- Restriction of one run to the channels listed in `idx`, in `idx` order. -/
def chan_slice (idx : List ℕ) (r : SyncSignal) : SyncSignal :=
  { nb_ch := idx.length
    size := r.size
    sampling_rate := r.sampling_rate
    start := r.start
    data := fun c k => r.data (idx.getD c 0) k
    rate_pos := r.rate_pos
    size_pos := r.size_pos }

/-- Modelled from the spec: tag-based channel extraction builds a new
`SignalSet` restricted to the channels named by `name` (else `UnknownTag`):
the kept tags are those whose index set is contained in the requested one,
re-derived to the new channel axis, and every run is channel-sliced
identically. -/
def get (S : SignalSet) (name : String) : Except SigError SignalSet :=
  match S.tags.lookup name with
  | none => .error .unknownTag
  | some idx =>
    .ok ⟨{ nb_ch := idx.length
           entries := (S.tags.entries.filter (fun p => p.2.all (fun i => idx.contains i))).map
             (fun p => (p.1, p.2.map (fun i => idx.indexOf i))) }
        , S.signals.map (chan_slice idx)⟩

/-- Modelled from the spec: `merge` is the synchronous-intersection operator:
its tags are the union (with channel remapping) of the operand registries,
and its runs are all non-empty products `intersect_channels ra rb` over pairs
of operand runs, time-sorted.  Absence of any overlapping equal-rate pair
yields a zero-run `SignalSet`, not an error. -/
def merge (a b : SignalSet) : Except SigError SignalSet :=
  match Tags.union a.tags b.tags with
  | .error e => .error e
  | .ok t =>
    .ok ⟨t, List.insertionSort byStart
          ((a.signals.map (fun ra => b.signals.filterMap (fun rb => ra.intersect_channels rb))).flatten)⟩

end SignalSet

/-- Modelled from the spec: an `Inventory` is a collection of `SignalSet`s. -/
structure Inventory where
  signalsets : List SignalSet

namespace Inventory

/-- Insert a `SignalSet` into the first group whose members carry the same
tag registry, or open a new group at the end. -/
def insertGroup (s : SignalSet) : List (List SignalSet) → List (List SignalSet)
  | [] => [[s]]
  | g :: gs =>
    if g.head?.map SignalSet.tags = some s.tags then (g ++ [s]) :: gs
    else g :: insertGroup s gs

/-- Group a list of `SignalSet`s by equal tag registries, first-occurrence
order, member order preserved inside each group. -/
def groupAux : List (List SignalSet) → List SignalSet → List (List SignalSet)
  | gs, [] => gs
  | gs, s :: ss => groupAux (insertGroup s gs) ss

/-- Groups of members sharing one tag registry, first-occurrence order. -/
def groupByTags (l : List SignalSet) : List (List SignalSet) := groupAux [] l

/-- Left fold of `join` over a list of `SignalSet`s. -/
def joinAll (s : SignalSet) : List SignalSet → Except SigError SignalSet
  | [] => .ok s
  | t :: ts =>
    match s.join t with
    | .ok u => joinAll u ts
    | .error e => .error e

/-- Join all members of one (non-empty) group into a single `SignalSet`. -/
def joinGroup : List SignalSet → Except SigError SignalSet
  | [] => .error .shapeError
  | s :: ss => joinAll s ss

/-- Join every group, keeping group order. -/
def joinGroups : List (List SignalSet) → Except SigError (List SignalSet)
  | [] => .ok []
  | g :: gs =>
    match joinGroup g, joinGroups gs with
    | .ok r, .ok rs => .ok (r :: rs)
    | .error e, _ => .error e
    | .ok _, .error e => .error e

/-- Left fold of `merge` over a list of `SignalSet`s. -/
def mergeAll (s : SignalSet) : List SignalSet → Except SigError SignalSet
  | [] => .ok s
  | t :: ts =>
    match s.merge t with
    | .ok u => mergeAll u ts
    | .error e => .error e

/-- Modelled from the spec and the reference walkthrough: `pack()` first
joins the members sharing one tag registry into one `SignalSet` per
registry, then folds the synchronous-intersection `merge` across the
registries; a resulting run set that is empty is reported as `none` (a
legitimate outcome, not an error). -/
def pack (I : Inventory) : Except SigError (Option SignalSet) :=
  match joinGroups (groupByTags I.signalsets) with
  | .error e => .error e
  | .ok [] => .ok none
  | .ok (r :: rs) =>
    match mergeAll r rs with
    | .error e => .error e
    | .ok m => .ok (if m.signals.isEmpty then none else some m)

end Inventory

/-! Concrete signals of the reference walkthrough.  `build_fake_signals`
creates, for each `(site, rate, start, stop)`, a 5-channel `SignalSet`
carrying the site's tag template and one run of `(stop - start) * rate + 1`
samples. -/

/-- All-zero raw data, as used by the walkthrough's fake signals. -/
def zeroData : ℕ → ℕ → ℚ := fun _ _ => 0

/-- Total constructor for a concrete run (falls back to a unit run on
non-positive rate or size, which never happens on the walkthrough data). -/
def mkRun (nch size : ℕ) (rate start : ℚ) : SyncSignal :=
  if h : 0 < rate ∧ 0 < size then
    ⟨nch, size, rate, start, zeroData, h.1, h.2⟩
  else
    ⟨nch, 1, 1, start, zeroData, one_pos, one_pos⟩

/-- Tag template of one site of the walkthrough:
`Ex, Ey, Hx, Hy, Hz` on channels `0..4`, the groups `E = (0,1)`,
`H = (2,3,4)` and `site = (0,1,2,3,4)`. -/
def siteTags (s : String) : Tags :=
  ⟨5, [("Ex_" ++ s, [0]), ("Ey_" ++ s, [1]), ("Hx_" ++ s, [2]),
       ("Hy_" ++ s, [3]), ("Hz_" ++ s, [4]),
       ("E_" ++ s, [0, 1]), ("H_" ++ s, [2, 3, 4]),
       ("site_" ++ s, [0, 1, 2, 3, 4])]⟩

/-- Walkthrough signal of site 1: 512 Hz over `[110, 250]`. -/
def signal_1 : SignalSet := ⟨siteTags "1", [mkRun 5 71681 512 110]⟩

/-- Walkthrough signal of site 2, first run: 512 Hz over `[0, 100]`. -/
def signal_2a : SignalSet := ⟨siteTags "2", [mkRun 5 51201 512 0]⟩

/-- Walkthrough signal of site 2, second run: 512 Hz over `[120, 220]`. -/
def signal_2b : SignalSet := ⟨siteTags "2", [mkRun 5 51201 512 120]⟩

/-- Walkthrough signal of site 2, third run: 1024 Hz over `[400, 450]`. -/
def signal_2c : SignalSet := ⟨siteTags "2", [mkRun 5 51201 1024 400]⟩

/-- The joined site-2 signal (three runs in one `SignalSet`). -/
def signal_2 : SignalSet :=
  ⟨siteTags "2", [mkRun 5 51201 512 0, mkRun 5 51201 512 120, mkRun 5 51201 1024 400]⟩

/-- Walkthrough signal of site 3, first run: 512 Hz over `[10, 300]`. -/
def signal_3a : SignalSet := ⟨siteTags "3", [mkRun 5 148481 512 10]⟩

/-- Walkthrough signal of site 3, second run: 1024 Hz over `[350, 500]`. -/
def signal_3b : SignalSet := ⟨siteTags "3", [mkRun 5 153601 1024 350]⟩

/-- The electric-field extraction `signal_2.E_2` of the walkthrough
(realised through the name-lookup operation `get`). -/
def getE2 : SignalSet :=
  match signal_2.get "E_2" with
  | .ok v => v
  | .error _ => ⟨⟨0, []⟩, []⟩

/-- A site-2 signal whose run 512 Hz over `[150, 250]` overlaps
`signal_2b`'s run `[120, 220]`. -/
def signal_2mid : SignalSet := ⟨siteTags "2", [mkRun 5 51201 512 150]⟩

/-- A signal set holding two runs that overlap in time (512 Hz over
`[0, 100]` and over `[50, 150]`); the data model does not forbid this. -/
def signal_over : SignalSet :=
  ⟨siteTags "2", [mkRun 5 51201 512 0, mkRun 5 51201 512 50]⟩

/-- Claim C8 as stated: for every `SignalSet` and every boolean mask of
length `nb_runs`, `select_runs` on the mask and on its negation succeed,
their run counts sum to the original, and joining the two results
reconstructs the original run set. -/
def C8asStated : Prop :=
  ∀ (S : SignalSet) (mask : List Bool), mask.length = S.nb_runs →
    ∃ A B, S.select_runs mask = .ok A ∧ S.select_runs (mask.map not) = .ok B ∧
      A.nb_runs + B.nb_runs = S.nb_runs ∧
      ∃ v, A.join B = .ok v ∧ v.signals.Perm S.signals

/-- The site-3 sub-inventory of the walkthrough: two signal sets with
identical tag registries, 512 Hz over `[10,300]` and 1024 Hz over
`[350,500]`. -/
def inv3 : Inventory := ⟨[signal_3a, signal_3b]⟩

/-- The packed site-3 sub-inventory of the walkthrough. -/
def packed3 : SignalSet :=
  match inv3.pack with
  | .ok (some v) => v
  | _ => ⟨⟨0, []⟩, []⟩

/-- Claim C1 as stated: whenever `pack` yields a `SignalSet`, its tag-name
set is the union of all input tag names, and every output run has, in
EVERY contained `SignalSet`, a run of the same sampling rate overlapping
the output run's interval. -/
def C1asStated : Prop :=
  ∀ (I : Inventory) (S : SignalSet), I.pack = .ok (some S) →
    (∀ n, n ∈ S.tags.names ↔ ∃ m ∈ I.signalsets, n ∈ m.tags.names) ∧
    ∀ r ∈ S.signals, ∀ m ∈ I.signalsets, ∃ ru ∈ m.signals,
      r.sampling_rate = ru.sampling_rate ∧ r.overlapsT ru

/-- One run carries the sample `(t, v)` on channel `c`. -/
def runSample (r : SyncSignal) (c : ℕ) (t v : ℚ) : Prop :=
  c < r.nb_ch ∧ ∃ k, k < r.size ∧ t = r.tIdx k ∧ v = r.data c k

/-- A signal set carries the sample `(t, v)` on channel `c` in one of its
runs. -/
def SampleAt (S : SignalSet) (c : ℕ) (t v : ℚ) : Prop :=
  ∃ r ∈ S.signals, runSample r c t v

/-- Total number of samples held by a signal set, all runs counted. -/
def sizeSum (S : SignalSet) : ℕ := (S.signals.map (·.size)).sum

/-- Claim C6 as stated: for every `SignalSet` and `t0 < t1` within a run's
span, joining `extract_t t0 t1` with its exclude-mode counterpart
succeeds and reconstructs the original sample content exactly, with no loss
or duplication of samples at the cut points. -/
def C6asStated : Prop :=
  ∀ (S : SignalSet) (t0 t1 : ℚ), t0 < t1 →
    (∃ r ∈ S.signals, r.start ≤ t0 ∧ t1 ≤ r.stopT) →
    ∃ v, (S.extract_t t0 t1 false).join (S.extract_t t0 t1 true) = .ok v ∧
      sizeSum v = sizeSum S ∧ ∀ c t val, SampleAt v c t val ↔ SampleAt S c t val

/-- A one-channel signal set with a single run at 1 Hz over `[0, 10]`
(11 samples at the integer seconds). -/
def exRun : SignalSet := ⟨⟨1, [("ch", [0])]⟩, [mkRun 1 11 1 0]⟩

/-- A run is grid-aligned: its start time is a whole number of sample
periods, so same-rate aligned runs share one global sample grid (true of
all the walkthrough data, whose starts are whole seconds). -/
def Aligned (r : SyncSignal) : Prop := (r.start * r.sampling_rate).den = 1

instance (r : SyncSignal) : Decidable (Aligned r) := by
  unfold Aligned
  exact inferInstance

/-- All tag names appearing in an inventory. -/
def inventoryTagNames (I : Inventory) : List String :=
  (I.signalsets.map (fun m => m.tags.names)).flatten

/-- A signal set holds a run at rate `ρ` whose closed interval contains the
instant `t` (and is grid-aligned). -/
def coversRT (S : SignalSet) (ρ t : ℚ) : Prop :=
  ∃ r ∈ S.signals, r.sampling_rate = ρ ∧ r.start ≤ t ∧ t ≤ r.stopT ∧ Aligned r

/-- The inventory has a common synchronization: one rate and one instant at
which every contained tag has data — every tag name is carried by a member
holding a run of that rate whose closed interval contains the instant. -/
def CommonSync (I : Inventory) : Prop :=
  ∃ ρ t, ∀ n ∈ inventoryTagNames I, ∃ m ∈ I.signalsets, n ∈ m.tags.names ∧
    ∃ r ∈ m.signals, r.sampling_rate = ρ ∧ r.start ≤ t ∧ t ≤ r.stopT

/-! Theorems.  First the claims settled by direct computation on the
walkthrough data, then the general lemmas and the remaining claims. -/

namespace SyncSignal

/-- The time of sample 0 is the start time. -/
theorem tIdx_zero (s : SyncSignal) : s.tIdx 0 = s.start := by
  simp [tIdx]

/-- Sample times are monotone in the index. -/
theorem tIdx_mono (s : SyncSignal) {a b : ℕ} (h : a ≤ b) : s.tIdx a ≤ s.tIdx b := by
  unfold tIdx
  have hr := s.rate_pos
  have hab : (a : ℚ) ≤ (b : ℚ) := by exact_mod_cast h
  have := (div_le_div_right hr).mpr hab
  linarith

/-- Sample times are strictly monotone in the index. -/
theorem tIdx_strict_mono (s : SyncSignal) {a b : ℕ} (h : a < b) : s.tIdx a < s.tIdx b := by
  unfold tIdx
  have hr := s.rate_pos
  have hab : (a : ℚ) < (b : ℚ) := by exact_mod_cast h
  have := (div_lt_div_right hr).mpr hab
  linarith

/-- Shifting a sample index adds the corresponding multiple of the sample
period to the time. -/
theorem tIdx_add (s : SyncSignal) (a b : ℕ) :
    s.tIdx (a + b) = s.tIdx a + (b : ℚ) / s.sampling_rate := by
  unfold tIdx
  push_cast
  ring

/-- The stop time is the time of the last sample. -/
theorem stopT_eq_tIdx (s : SyncSignal) : s.stopT = s.tIdx (s.size - 1) := by
  unfold stopT tIdx
  have h1 : (1 : ℕ) ≤ s.size := s.size_pos
  rw [Nat.cast_sub h1, Nat.cast_one]

/-- A run starts no later than it stops. -/
theorem start_le_stopT (s : SyncSignal) : s.start ≤ s.stopT := by
  rw [stopT_eq_tIdx]
  have := s.tIdx_mono (Nat.zero_le (s.size - 1))
  rwa [tIdx_zero] at this

/-- Characterisation of the indices whose sample time is at or after `t0`. -/
theorem le_tIdx_iff (s : SyncSignal) {t0 : ℚ} {k : ℕ} :
    t0 ≤ s.tIdx k ↔ ⌈(t0 - s.start) * s.sampling_rate⌉ ≤ (k : ℤ) := by
  have hr := s.rate_pos
  have h1 : t0 ≤ s.tIdx k ↔ t0 - s.start ≤ (k : ℚ) / s.sampling_rate := by
    unfold tIdx
    constructor <;> intro h <;> linarith
  rw [h1, le_div_iff hr, Int.ceil_le]
  push_cast
  exact Iff.rfl

/-- Characterisation of the indices whose sample time is at or before `t1`. -/
theorem tIdx_le_iff (s : SyncSignal) {t1 : ℚ} {k : ℕ} :
    s.tIdx k ≤ t1 ↔ (k : ℤ) ≤ ⌊(t1 - s.start) * s.sampling_rate⌋ := by
  have hr := s.rate_pos
  have h1 : s.tIdx k ≤ t1 ↔ (k : ℚ) / s.sampling_rate ≤ t1 - s.start := by
    unfold tIdx
    constructor <;> intro h <;> linarith
  rw [h1, div_le_iff hr, Int.le_floor]
  push_cast
  exact Iff.rfl

/-- In-range indices at or past `sliceLo` are exactly those at or after `t0`. -/
theorem sliceLo_le_iff (s : SyncSignal) {t0 : ℚ} {k : ℕ} (hk : k < s.size) :
    s.sliceLo t0 ≤ k ↔ t0 ≤ s.tIdx k := by
  rw [le_tIdx_iff]
  unfold sliceLo
  rw [Int.toNat_le]
  have hk2 : (k : ℤ) < (s.size : ℤ) := by exact_mod_cast hk
  omega

/-- In-range indices below `sliceHi` are exactly those at or before `t1`. -/
theorem lt_sliceHi_iff (s : SyncSignal) {t1 : ℚ} {k : ℕ} (hk : k < s.size) :
    k < s.sliceHi t1 ↔ s.tIdx k ≤ t1 := by
  rw [tIdx_le_iff]
  unfold sliceHi
  rw [Int.lt_toNat]
  have hk2 : (k : ℤ) < (s.size : ℤ) := by exact_mod_cast hk
  omega

/-- The upper slice index never exceeds the sample count. -/
theorem sliceHi_le_size (s : SyncSignal) (t1 : ℚ) : s.sliceHi t1 ≤ s.size := by
  unfold sliceHi
  omega

/-- Shape of a successful `slice_time`. -/
theorem slice_time_eq_some {s out : SyncSignal} {t0 t1 : ℚ}
    (h : s.slice_time t0 t1 = some out) :
    s.sliceLo t0 < s.sliceHi t1 ∧
    out.nb_ch = s.nb_ch ∧ out.size = s.sliceHi t1 - s.sliceLo t0 ∧
    out.sampling_rate = s.sampling_rate ∧ out.start = s.tIdx (s.sliceLo t0) ∧
    out.data = fun c k => s.data c (s.sliceLo t0 + k) := by
  unfold slice_time at h
  by_cases hlt : s.sliceLo t0 < s.sliceHi t1
  · simp only [hlt, dif_pos] at h
    cases h
    exact ⟨hlt, rfl, rfl, rfl, rfl, rfl⟩
  · simp only [hlt, dif_neg, not_false_iff] at h
    exact Option.noConfusion h

/-- A successful `slice_time` fails only when no sample is in the window;
conversely any in-window sample forces success. -/
theorem slice_time_isSome_iff {s : SyncSignal} {t0 t1 : ℚ} :
    (∃ out, s.slice_time t0 t1 = some out) ↔
      ∃ k, k < s.size ∧ t0 ≤ s.tIdx k ∧ s.tIdx k ≤ t1 := by
  constructor
  · rintro ⟨out, h⟩
    obtain ⟨hlt, -, -, -, -, -⟩ := slice_time_eq_some h
    have hk : s.sliceLo t0 < s.size := lt_of_lt_of_le hlt (s.sliceHi_le_size t1)
    exact ⟨s.sliceLo t0, hk, (s.sliceLo_le_iff hk).mp le_rfl,
      ((s.lt_sliceHi_iff hk).mp hlt)⟩
  · rintro ⟨k, hk, h0, h1⟩
    have hlt : s.sliceLo t0 < s.sliceHi t1 :=
      lt_of_le_of_lt ((s.sliceLo_le_iff hk).mpr h0) ((s.lt_sliceHi_iff hk).mpr h1)
    exact ⟨_, dif_pos hlt⟩

/-- Stop time of a successful slice: the time of the last in-window sample. -/
theorem slice_time_stopT {s out : SyncSignal} {t0 t1 : ℚ}
    (h : s.slice_time t0 t1 = some out) : out.stopT = s.tIdx (s.sliceHi t1 - 1) := by
  obtain ⟨hlt, -, hsz, hrt, hst, -⟩ := slice_time_eq_some h
  rw [out.stopT_eq_tIdx]
  simp only [hsz, hrt, hst, tIdx]
  have h1 : s.sliceLo t0 + (s.sliceHi t1 - s.sliceLo t0 - 1) = s.sliceHi t1 - 1 := by omega
  have h2 : ((s.sliceLo t0 : ℚ)) + ((s.sliceHi t1 - s.sliceLo t0 - 1 : ℕ) : ℚ) =
      ((s.sliceHi t1 - 1 : ℕ) : ℚ) := by
    exact_mod_cast congrArg (Nat.cast : ℕ → ℚ) h1
  rw [add_assoc, div_add_div_same, h2]

/-- Interval facts about a successful slice: the result's closed interval
sits inside both the window and the original run's interval, and is
non-degenerate. -/
theorem slice_time_interval {s out : SyncSignal} {t0 t1 : ℚ}
    (h : s.slice_time t0 t1 = some out) :
    t0 ≤ out.start ∧ out.stopT ≤ t1 ∧ s.start ≤ out.start ∧
    out.stopT ≤ s.stopT ∧ out.start ≤ out.stopT := by
  obtain ⟨hlt, -, -, -, hst, -⟩ := slice_time_eq_some h
  have hhi := s.sliceHi_le_size t1
  have hk0 : s.sliceLo t0 < s.size := lt_of_lt_of_le hlt hhi
  have hk1 : s.sliceHi t1 - 1 < s.size := by omega
  have hstp := slice_time_stopT h
  refine ⟨?_, ?_, ?_, ?_, ?_⟩
  · rw [hst]
    exact (s.sliceLo_le_iff hk0).mp le_rfl
  · rw [hstp]
    exact (s.lt_sliceHi_iff hk1).mp (by omega)
  · rw [hst]
    have := s.tIdx_mono (Nat.zero_le (s.sliceLo t0))
    rwa [tIdx_zero] at this
  · rw [hstp, s.stopT_eq_tIdx]
    exact s.tIdx_mono (by omega)
  · rw [hst, hstp]
    exact s.tIdx_mono (by omega)

end SyncSignal

/-- C3: joining the three single-run site-2 signal sets (512 Hz over
`[0,100]`, 512 Hz over `[120,220]`, 1024 Hz over `[400,450]`) succeeds and
yields a `SignalSet` with `nb_runs = 3`, `sampling_rates = [512, 512, 1024]`
and `starts = [0, 120, 400]`; the result is the three-run `signal_2`. -/
theorem C3_join_three_runs :
    ∃ u v, signal_2a.join signal_2b = .ok u ∧ u.join signal_2c = .ok v ∧
      v.nb_runs = 3 ∧ v.sampling_rates = [512, 512, 1024] ∧
      v.starts = [0, 120, 400] ∧ v = signal_2 :=
  ⟨_, _, rfl, rfl, by decide, by decide, by decide, rfl⟩

/-- C4: merging the 5-channel site-1 and site-2 signal sets (disjoint tag
names, one common 512 Hz overlap `[110,250] ∩ [120,220] = [120,220]`) yields
a 10-channel `SignalSet` in which site 1's channels occupy indices 0..4 and
site 2's occupy 5..9 (tags remapped accordingly), with a single run on the
time intersection `[120, 220]`. -/
theorem C4_merge_two_sites :
    ∃ v, signal_1.merge signal_2 = .ok v ∧
      v.nb_channels = 10 ∧
      v.tags = ⟨10, [("Ex_1", [0]), ("Ey_1", [1]), ("Hx_1", [2]),
        ("Hy_1", [3]), ("Hz_1", [4]), ("E_1", [0, 1]), ("H_1", [2, 3, 4]),
        ("site_1", [0, 1, 2, 3, 4]),
        ("Ex_2", [5]), ("Ey_2", [6]), ("Hx_2", [7]), ("Hy_2", [8]),
        ("Hz_2", [9]), ("E_2", [5, 6]), ("H_2", [7, 8, 9]),
        ("site_2", [5, 6, 7, 8, 9])]⟩ ∧
      v.profile = [(512, 120, 220, 51201)] :=
  ⟨_, rfl, by decide, by decide, by decide⟩

/-- C5: on the joined three-run site-2 set, `extract_t 50 200` yields exactly
the 2 runs 512 Hz `[50,100]` and 512 Hz `[120,200]`, and
`extract_t 50 200` in exclude mode yields exactly the 3 runs 512 Hz
`[0,50]`, 512 Hz `[200,220]` and 1024 Hz `[400,450]`. -/
theorem C5_extract_window_scenarios :
    (signal_2.extract_t 50 200 false).nb_runs = 2 ∧
    (signal_2.extract_t 50 200 false).profile =
      [(512, 50, 100, 25601), (512, 120, 200, 40961)] ∧
    (signal_2.extract_t 50 200 true).nb_runs = 3 ∧
    (signal_2.extract_t 50 200 true).profile =
      [(512, 0, 50, 25601), (512, 200, 220, 10241), (1024, 400, 450, 51201)] := by
  refine ⟨by decide, by decide, by decide, by decide⟩

/-- C10: tag-based channel extraction leaves the run structure unchanged:
the result has the same `nb_runs` and identical per-run sampling rates,
starts, stops and sizes; only the channel axis and the tag registry are
narrowed. -/
theorem C10_get_preserves_run_structure (S : SignalSet) (name : String) (T : SignalSet)
    (h : S.get name = .ok T) :
    T.nb_runs = S.nb_runs ∧ T.sampling_rates = S.sampling_rates ∧
    T.starts = S.starts ∧ T.stops = S.stops ∧ T.sizes = S.sizes := by
  unfold SignalSet.get at h
  cases hl : S.tags.lookup name with
  | none =>
    rw [hl] at h
    exact Except.noConfusion h
  | some idx =>
    rw [hl] at h
    cases h
    refine ⟨?_, ?_, ?_, ?_, ?_⟩ <;>
      simp [SignalSet.nb_runs, SignalSet.sampling_rates, SignalSet.starts,
        SignalSet.stops, SignalSet.sizes, SignalSet.chan_slice, SyncSignal.stopT,
        List.map_map, Function.comp]

/-- Witness for C10 at the walkthrough extraction `signal_2.E_2`. -/
theorem C10_witness :
    getE2.nb_runs = signal_2.nb_runs ∧ getE2.sampling_rates = signal_2.sampling_rates ∧
    getE2.starts = signal_2.starts ∧ getE2.stops = signal_2.stops ∧
    getE2.sizes = signal_2.sizes :=
  C10_get_preserves_run_structure signal_2 "E_2" getE2 rfl

namespace SyncSignal

/-- Closed-interval overlap is symmetric. -/
theorem overlapsT_symm {a b : SyncSignal} : a.overlapsT b ↔ b.overlapsT a := by
  unfold overlapsT
  rw [max_comm, min_comm]

end SyncSignal

/-- Non-overlap of runs is a symmetric relation. -/
theorem not_overlapsT_symmetric :
    Symmetric (fun r u : SyncSignal => ¬ r.overlapsT u) :=
  fun _ _ h hba => h (SyncSignal.overlapsT_symm.mpr hba)

namespace SignalSet

/-- The boolean disjointness check agrees with pairwise non-overlap. -/
theorem disjointB_iff (l : List SyncSignal) :
    disjointB l = true ↔ l.Pairwise (fun a b => ¬ a.overlapsT b) := by
  induction l with
  | nil => simp [disjointB]
  | cons r rs ih =>
    simp [disjointB, List.all_eq_true, Bool.and_eq_true, ih, List.pairwise_cons]

/-- Shape of a successful `join`. -/
theorem join_eq_ok {a b v : SignalSet} (h : a.join b = .ok v) :
    a.tags = b.tags ∧ v.tags = a.tags ∧
    v.signals = List.insertionSort byStart (a.signals ++ b.signals) := by
  unfold join at h
  by_cases ht : a.tags = b.tags
  · rw [if_pos ht] at h
    by_cases hd : disjointB (a.signals ++ b.signals) = true
    · rw [if_pos hd] at h
      cases h
      exact ⟨ht, rfl, rfl⟩
    · rw [if_neg hd] at h
      exact Except.noConfusion h
  · rw [if_neg ht] at h
    exact Except.noConfusion h

/-- `join` succeeds on equal registries and pairwise non-overlapping runs. -/
theorem join_ok_of_disjoint {a b : SignalSet} (ht : a.tags = b.tags)
    (hd : (a.signals ++ b.signals).Pairwise (fun r u => ¬ r.overlapsT u)) :
    a.join b = .ok ⟨a.tags, List.insertionSort byStart (a.signals ++ b.signals)⟩ := by
  unfold join
  rw [if_pos ht, if_pos ((disjointB_iff _).mpr hd)]

/-- `join` fails with `OverlapError` as soon as one run of each operand
overlap (tags being equal). -/
theorem join_error_of_overlap {a b : SignalSet} (ht : a.tags = b.tags)
    {ra rb : SyncSignal} (hra : ra ∈ a.signals) (hrb : rb ∈ b.signals)
    (hov : ra.overlapsT rb) : a.join b = .error .overlapError := by
  unfold join
  rw [if_pos ht]
  have hnd : ¬ disjointB (a.signals ++ b.signals) = true := by
    rw [disjointB_iff, List.pairwise_append]
    rintro ⟨-, -, hcross⟩
    exact hcross ra hra rb hrb hov
  rw [if_neg hnd]

/-- Two pairwise non-overlapping run lists that are permutations of each
other sort to the same list: non-overlap separates the start times. -/
theorem insertionSort_eq_of_perm {l1 l2 : List SyncSignal} (hp : l1.Perm l2)
    (hd : l1.Pairwise (fun a b => ¬ a.overlapsT b)) :
    List.insertionSort byStart l1 = List.insertionSort byStart l2 := by
  have hstart : l1.Pairwise (fun a b : SyncSignal => a.start ≠ b.start) := by
    refine hd.imp ?_
    intro a b hab heq
    apply hab
    unfold SyncSignal.overlapsT
    rw [heq, max_self]
    exact le_min (heq ▸ a.start_le_stopT) b.start_le_stopT
  have hsymm : Symmetric (fun a b : SyncSignal => a.start ≠ b.start) :=
    fun _ _ h heq => h heq.symm
  have hp2 : (List.insertionSort byStart l1).Perm (List.insertionSort byStart l2) :=
    ((List.perm_insertionSort byStart l1).trans hp).trans
      (List.perm_insertionSort byStart l2).symm
  have hne1 : (List.insertionSort byStart l1).Pairwise
      (fun a b : SyncSignal => a.start ≠ b.start) :=
    (((List.perm_insertionSort byStart l1).pairwise_iff (fun h => hsymm h)).mpr hstart)
  have hne2 : (List.insertionSort byStart l2).Pairwise
      (fun a b : SyncSignal => a.start ≠ b.start) :=
    ((((List.perm_insertionSort byStart l2).trans hp.symm).pairwise_iff (fun h => hsymm h)).mpr hstart)
  have hs1 := List.sorted_insertionSort byStart l1
  have hs2 := List.sorted_insertionSort byStart l2
  have strict1 : (List.insertionSort byStart l1).Pairwise
      (fun a b : SyncSignal => a.start < b.start) :=
    (hs1.and hne1).imp (fun h => lt_of_le_of_ne h.1 h.2)
  have strict2 : (List.insertionSort byStart l2).Pairwise
      (fun a b : SyncSignal => a.start < b.start) :=
    (hs2.and hne2).imp (fun h => lt_of_le_of_ne h.1 h.2)
  haveI : IsAntisymm SyncSignal (fun a b : SyncSignal => a.start < b.start) :=
    ⟨fun _ _ h1 h2 => absurd (h1.trans h2) (lt_irrefl _)⟩
  exact List.eq_of_perm_of_sorted hp2 strict1 strict2

end SignalSet

/-- C7: for signal sets with identical tags whose runs are pairwise
disjoint in time, `join` is commutative (both orders give the same
time-sorted result and succeed), and `join` fails with `OverlapError`
whenever a run of one operand overlaps a run of the other. -/
theorem C7_join_comm_and_overlap_error (a b : SignalSet) (ht : a.tags = b.tags) :
    ((a.signals ++ b.signals).Pairwise (fun r u => ¬ r.overlapsT u) →
      a.join b = b.join a ∧ ∃ v, a.join b = .ok v) ∧
    (∀ ra ∈ a.signals, ∀ rb ∈ b.signals, ra.overlapsT rb →
      a.join b = .error .overlapError) := by
  constructor
  · intro hd
    have hd2 : (b.signals ++ a.signals).Pairwise (fun r u => ¬ r.overlapsT u) :=
      (List.perm_append_comm.pairwise_iff (fun h => not_overlapsT_symmetric h)).mp hd
    have e1 := SignalSet.join_ok_of_disjoint ht hd
    have e2 := SignalSet.join_ok_of_disjoint ht.symm hd2
    refine ⟨?_, _, e1⟩
    rw [e1, e2]
    refine congrArg Except.ok ?_
    rw [SignalSet.mk.injEq]
    exact ⟨ht, SignalSet.insertionSort_eq_of_perm List.perm_append_comm hd⟩
  · intro ra hra rb hrb hov
    exact SignalSet.join_error_of_overlap ht hra hrb hov

/-- Witness for C7: the two disjoint site-2 runs join commutatively, and
joining `signal_2b` with the overlapping `signal_2mid` raises
`OverlapError`. -/
theorem C7_witness :
    signal_2a.join signal_2b = signal_2b.join signal_2a ∧
    signal_2b.join signal_2mid = .error .overlapError :=
  ⟨((C7_join_comm_and_overlap_error signal_2a signal_2b rfl).1 (by decide)).1,
   (C7_join_comm_and_overlap_error signal_2b signal_2mid rfl).2
     (mkRun 5 51201 512 120) (List.mem_singleton.mpr rfl)
     (mkRun 5 51201 512 150) (List.mem_singleton.mpr rfl) (by decide)⟩

/-- Splitting a list by a mask and by its negation is an exact partition. -/
theorem zip_select_perm {α : Type} :
    ∀ (l : List α) (m : List Bool), m.length = l.length →
      (((l.zip m).filterMap fun p => if p.2 then some p.1 else none) ++
       ((l.zip (m.map not)).filterMap fun p => if p.2 then some p.1 else none)).Perm l := by
  intro l
  induction l with
  | nil =>
    intro m hm
    simp
  | cons x xs ih =>
    intro m hm
    cases m with
    | nil => simp at hm
    | cons b bs =>
      have hlen : bs.length = xs.length := by simpa using hm
      cases b
      · simp only [List.zip_cons_cons, List.map_cons, List.filterMap_cons, Bool.not_false,
          if_neg (Bool.false_ne_true), if_pos rfl]
        exact List.perm_middle.trans ((ih bs hlen).cons x)
      · simp only [List.zip_cons_cons, List.map_cons, List.filterMap_cons, Bool.not_true,
          if_pos rfl, if_neg (Bool.false_ne_true)]
        exact (ih bs hlen).cons x

/-- C8 as stated is refuted by a signal set whose two runs overlap in
time: the two selections still partition the runs, but re-joining them
fails with `OverlapError`, so the original run set is not reconstructed. -/
theorem C8_counterexample : ¬ C8asStated := by
  intro h
  obtain ⟨A, B, hA, hB, -, v, hv, -⟩ := h signal_over [true, false] rfl
  have eA : signal_over.select_runs [true, false] =
      .ok ⟨signal_over.tags, [mkRun 5 51201 512 0]⟩ := rfl
  have eB : signal_over.select_runs ([true, false].map not) =
      .ok ⟨signal_over.tags, [mkRun 5 51201 512 50]⟩ := rfl
  have hA2 : A = ⟨signal_over.tags, [mkRun 5 51201 512 0]⟩ := Except.ok.inj (hA.symm.trans eA)
  have hB2 : B = ⟨signal_over.tags, [mkRun 5 51201 512 50]⟩ := Except.ok.inj (hB.symm.trans eB)
  rw [hA2, hB2] at hv
  have ej : (⟨signal_over.tags, [mkRun 5 51201 512 0]⟩ : SignalSet).join
      ⟨signal_over.tags, [mkRun 5 51201 512 50]⟩ = .error .overlapError := by
    exact SignalSet.join_error_of_overlap rfl (List.mem_singleton.mpr rfl)
      (List.mem_singleton.mpr rfl) (by decide)
  exact Except.noConfusion (hv.symm.trans ej)

/-- C8, amended: provided the original's runs are themselves pairwise
non-overlapping in time (as `join` requires), `select_runs` on a mask of
the right length and on its negation partition the run set exactly: both
succeed, their run counts sum to the original's, no run is lost or
duplicated, and joining the two results reconstructs the original run set. -/
theorem C8_select_runs_partition (S : SignalSet) (mask : List Bool)
    (hlen : mask.length = S.nb_runs)
    (hdisj : S.signals.Pairwise (fun r u => ¬ r.overlapsT u)) :
    ∃ A B, S.select_runs mask = .ok A ∧ S.select_runs (mask.map not) = .ok B ∧
      A.nb_runs + B.nb_runs = S.nb_runs ∧ (A.signals ++ B.signals).Perm S.signals ∧
      ∃ v, A.join B = .ok v ∧ v.signals.Perm S.signals := by
  have hlen2 : (mask.map not).length = S.signals.length := by simpa using hlen
  have hperm := zip_select_perm S.signals mask hlen
  set LA := (S.signals.zip mask).filterMap (fun p => if p.2 then some p.1 else none) with hLA
  set LB := (S.signals.zip (mask.map not)).filterMap (fun p => if p.2 then some p.1 else none)
    with hLB
  have hAok : S.select_runs mask = .ok ⟨S.tags, LA⟩ := by
    unfold SignalSet.select_runs
    rw [if_pos (show mask.length = S.signals.length from hlen)]
  have hBok : S.select_runs (mask.map not) = .ok ⟨S.tags, LB⟩ := by
    unfold SignalSet.select_runs
    rw [if_pos hlen2]
  have hdisjAB := (hperm.pairwise_iff (fun h => not_overlapsT_symmetric h)).mpr hdisj
  have hjoin := SignalSet.join_ok_of_disjoint
    (show (⟨S.tags, LA⟩ : SignalSet).tags = (⟨S.tags, LB⟩ : SignalSet).tags from rfl) hdisjAB
  refine ⟨⟨S.tags, LA⟩, ⟨S.tags, LB⟩, hAok, hBok, ?_, hperm, _, hjoin, ?_⟩
  · have hl := hperm.length_eq
    simpa [SignalSet.nb_runs] using hl
  · exact (List.perm_insertionSort SignalSet.byStart _).trans hperm

/-- Joining an accumulator with a list of same-tag signal sets whose runs
are globally pairwise disjoint succeeds, keeps the tags, and collects every
run exactly once. -/
theorem joinAll_ok_of_uniform :
    ∀ {s : SignalSet} {ts : List SignalSet},
      (∀ m ∈ ts, m.tags = s.tags) →
      (s.signals ++ (ts.map SignalSet.signals).flatten).Pairwise
        (fun r u => ¬ r.overlapsT u) →
      ∃ u, Inventory.joinAll s ts = .ok u ∧ u.tags = s.tags ∧
        u.signals.Perm (s.signals ++ (ts.map SignalSet.signals).flatten) := by
  intro s ts
  induction ts generalizing s with
  | nil =>
    intro _ _
    exact ⟨s, rfl, rfl, by simp⟩
  | cons t ts ih =>
    intro hts hd
    have htag : t.tags = s.tags := hts t (by simp)
    have hflat : ((t :: ts).map SignalSet.signals).flatten =
        t.signals ++ (ts.map SignalSet.signals).flatten := by simp
    rw [hflat] at hd
    have hsub : List.Sublist (s.signals ++ t.signals)
        (s.signals ++ (t.signals ++ (ts.map SignalSet.signals).flatten)) :=
      (List.sublist_append_left t.signals _).append_left s.signals
    have hdst : (s.signals ++ t.signals).Pairwise (fun r u => ¬ r.overlapsT u) :=
      hd.sublist hsub
    have hjoin := SignalSet.join_ok_of_disjoint htag.symm hdst
    have hperm1 : (List.insertionSort SignalSet.byStart (s.signals ++ t.signals) ++
        (ts.map SignalSet.signals).flatten).Perm
        (s.signals ++ (t.signals ++ (ts.map SignalSet.signals).flatten)) := by
      have hp := (List.perm_insertionSort SignalSet.byStart
        (s.signals ++ t.signals)).append_right ((ts.map SignalSet.signals).flatten)
      rw [List.append_assoc] at hp
      exact hp
    have hdw : ((List.insertionSort SignalSet.byStart (s.signals ++ t.signals)) ++
        (ts.map SignalSet.signals).flatten).Pairwise (fun r u => ¬ r.overlapsT u) :=
      (hperm1.pairwise_iff (fun h => not_overlapsT_symmetric h)).mpr hd
    obtain ⟨u, hu, hutags, huperm⟩ :=
      @ih ⟨s.tags, List.insertionSort SignalSet.byStart (s.signals ++ t.signals)⟩
        (fun m hm => (hts m (by simp [hm])))
        hdw
    refine ⟨u, ?_, hutags, ?_⟩
    · unfold Inventory.joinAll
      rw [hjoin]
      exact hu
    · exact (huperm.trans hperm1).trans (by rw [hflat])

/-- If at least one joining step happens, the result of `joinAll` is sorted
by start time. -/
theorem joinAll_sorted :
    ∀ {s : SignalSet} {ts : List SignalSet} {u : SignalSet},
      ts ≠ [] → Inventory.joinAll s ts = .ok u →
      u.signals.Pairwise SignalSet.byStart := by
  intro s ts
  induction ts generalizing s with
  | nil =>
    intro u hne _
    exact absurd rfl hne
  | cons t ts ih =>
    intro u _ h
    unfold Inventory.joinAll at h
    cases hj : s.join t with
    | error e =>
      rw [hj] at h
      exact Except.noConfusion h
    | ok w =>
      rw [hj] at h
      cases ts with
      | nil =>
        have hw : w = u := by
          unfold Inventory.joinAll at h
          exact Except.ok.inj h
        obtain ⟨-, -, hsig⟩ := SignalSet.join_eq_ok hj
        rw [← hw, hsig]
        exact List.sorted_insertionSort SignalSet.byStart _
      | cons t2 ts2 =>
        exact ih (by simp) h

/-- Grouping a uniformly-tagged list keeps everything in one group. -/
theorem groupAux_uniform (t : Tags) :
    ∀ (ss : List SignalSet) (g : List SignalSet), g ≠ [] →
      g.head?.map SignalSet.tags = some t → (∀ m ∈ ss, m.tags = t) →
      Inventory.groupAux [g] ss = [g ++ ss] := by
  intro ss
  induction ss with
  | nil =>
    intro g _ _ _
    simp [Inventory.groupAux]
  | cons s ss ih =>
    intro g hg hgt hss
    have hst : s.tags = t := hss s (by simp)
    unfold Inventory.groupAux
    unfold Inventory.insertGroup
    rw [if_pos (by rw [hgt, hst])]
    have hgs : (g ++ [s]).head?.map SignalSet.tags = some t := by
      cases g with
      | nil => exact absurd rfl hg
      | cons a g' => simpa using hgt
    have := ih (g ++ [s]) (by simp) hgs (fun m hm => hss m (by simp [hm]))
    rw [this]
    simp

/-- Grouping a non-empty uniformly-tagged list yields the single group
holding the whole list. -/
theorem groupByTags_uniform {t : Tags} {l : List SignalSet} (hne : l ≠ [])
    (hl : ∀ m ∈ l, m.tags = t) : Inventory.groupByTags l = [l] := by
  cases l with
  | nil => exact absurd rfl hne
  | cons s ss =>
    unfold Inventory.groupByTags Inventory.groupAux
    have h1 : Inventory.insertGroup s [] = [[s]] := rfl
    rw [h1]
    have := groupAux_uniform t ss [s] (by simp)
      (by simp [hl s (by simp)]) (fun m hm => hl m (by simp [hm]))
    rw [this]
    simp

/-- C9: when an inventory contains several signal sets with identical tag
registries, `pack` combines their mutually non-overlapping runs by join:
it succeeds with a `SignalSet` carrying the common registry whose run
sequence holds every member run exactly once, sorted by start time
(regardless of rates or gaps between the runs). -/
theorem C9_pack_same_tags_joins (I : Inventory) (t : Tags)
    (hlen : 2 ≤ I.signalsets.length)
    (htags : ∀ m ∈ I.signalsets, m.tags = t)
    (hdisj : ((I.signalsets.map SignalSet.signals).flatten).Pairwise
      (fun r u => ¬ r.overlapsT u))
    (hruns : (I.signalsets.map SignalSet.signals).flatten ≠ []) :
    ∃ v, I.pack = .ok (some v) ∧ v.tags = t ∧
      v.signals.Perm ((I.signalsets.map SignalSet.signals).flatten) ∧
      v.signals.Pairwise SignalSet.byStart := by
  cases hl : I.signalsets with
  | nil => rw [hl] at hlen; exact absurd hlen (by simp)
  | cons s ss =>
    rw [hl] at htags hdisj hruns
    have hne2 : ss ≠ [] := by
      rw [hl] at hlen
      cases ss with
      | nil => simp at hlen
      | cons a b => simp
    have hflat : ((s :: ss).map SignalSet.signals).flatten =
        s.signals ++ (ss.map SignalSet.signals).flatten := by simp
    rw [hflat] at hdisj hruns
    obtain ⟨u, hu, hutags, huperm⟩ := @joinAll_ok_of_uniform s ss
      (fun m hm => (htags m (by simp [hm])).trans (htags s (by simp)).symm)
      hdisj
    have husort := joinAll_sorted hne2 hu
    have hgroups : Inventory.groupByTags I.signalsets = [s :: ss] := by
      rw [hl]
      exact groupByTags_uniform (by simp) htags
    have hpack : I.pack = .ok (if u.signals.isEmpty then none else some u) := by
      unfold Inventory.pack
      rw [hgroups]
      have hjg : Inventory.joinGroups [s :: ss] = .ok [u] := by
        have h1 : Inventory.joinGroup (s :: ss) = .ok u := hu
        unfold Inventory.joinGroups
        rw [h1]
        rfl
      rw [hjg]
      rfl
    have hne3 : u.signals ≠ [] := by
      intro he
      rw [he] at huperm
      exact hruns huperm.symm.eq_nil
    refine ⟨u, ?_, hutags.trans (htags s (by simp)), ?_, husort⟩
    · rw [hpack]
      cases hcase : u.signals with
      | nil => exact absurd hcase hne3
      | cons a lrest => rfl
    · simpa using huperm

/-- Witness for C8 on the three-run site-2 set and the 512 Hz mask. -/
theorem C8_witness :
    ∃ A B, signal_2.select_runs [true, true, false] = .ok A ∧
      signal_2.select_runs [false, false, true] = .ok B ∧
      A.nb_runs + B.nb_runs = signal_2.nb_runs ∧
      (A.signals ++ B.signals).Perm signal_2.signals ∧
      ∃ v, A.join B = .ok v ∧ v.signals.Perm signal_2.signals :=
  C8_select_runs_partition signal_2 [true, true, false] rfl (by decide)

/-- Witness for C9: packing the two site-3 signal sets (512 Hz `[10,300]`
and 1024 Hz `[350,500]`, identical tags) yields both runs, time-sorted. -/
theorem C9_witness :
    ∃ v, Inventory.pack ⟨[signal_3a, signal_3b]⟩ = .ok (some v) ∧
      v.tags = siteTags "3" ∧
      v.signals.Perm (([signal_3a, signal_3b].map SignalSet.signals).flatten) ∧
      v.signals.Pairwise SignalSet.byStart :=
  C9_pack_same_tags_joins ⟨[signal_3a, signal_3b]⟩ (siteTags "3") (by decide) (by decide)
    (by decide) (List.cons_ne_nil _ _)

namespace SyncSignal

/-- Shape of a successful `concat_channels`. -/
theorem concat_channels_eq_ok {x y z : SyncSignal} (h : x.concat_channels y = .ok z) :
    x.sampling_rate = y.sampling_rate ∧ x.start = y.start ∧ x.size = y.size ∧
    z.sampling_rate = x.sampling_rate ∧ z.start = x.start ∧ z.size = x.size ∧
    z.nb_ch = x.nb_ch + y.nb_ch := by
  unfold concat_channels at h
  by_cases hr : x.sampling_rate = y.sampling_rate
  · rw [if_pos hr] at h
    by_cases ha : x.start = y.start ∧ x.size = y.size
    · rw [if_pos ha] at h
      cases h
      exact ⟨hr, ha.1, ha.2, rfl, rfl, rfl, rfl⟩
    · rw [if_neg ha] at h
      exact Except.noConfusion h
  · rw [if_neg hr] at h
    exact Except.noConfusion h

/-- Two runs sharing rate, start and size share their stop time. -/
theorem stopT_congr {x z : SyncSignal} (hr : z.sampling_rate = x.sampling_rate)
    (hst : z.start = x.start) (hsz : z.size = x.size) : z.stopT = x.stopT := by
  unfold stopT
  rw [hr, hst, hsz]

/-- A successful `intersect_channels` shares the operands' common rate and
its closed interval sits inside both operands' intervals, non-degenerate. -/
theorem intersect_channels_eq_some {a b r : SyncSignal}
    (h : a.intersect_channels b = some r) :
    r.sampling_rate = a.sampling_rate ∧ a.sampling_rate = b.sampling_rate ∧
    a.start ≤ r.start ∧ b.start ≤ r.start ∧ r.stopT ≤ a.stopT ∧ r.stopT ≤ b.stopT ∧
    r.start ≤ r.stopT := by
  unfold intersect_channels at h
  by_cases hr : a.sampling_rate = b.sampling_rate
  · rw [if_pos hr] at h
    cases hx : slice_time a b.start b.stopT with
    | none =>
      rw [hx] at h
      exact Option.noConfusion h
    | some x =>
      rw [hx] at h
      cases hy : slice_time b a.start a.stopT with
      | none =>
        rw [hy] at h
        exact Option.noConfusion h
      | some y =>
        rw [hy] at h
        have h3 : (match x.concat_channels y with
            | .ok z => some z
            | .error _ => none) = some r := h
        cases hc : x.concat_channels y with
        | error e =>
          rw [hc] at h3
          exact Option.noConfusion h3
        | ok z =>
          rw [hc] at h3
          have hzr : z = r := Option.some.inj h3
          subst hzr
          obtain ⟨-, -, -, hzr, hzst, hzsz, -⟩ := concat_channels_eq_ok hc
          obtain ⟨hxw0, hxw1, hxa0, hxa1, hxne⟩ := slice_time_interval hx
          obtain ⟨-, -, -, hxr, hxst, -⟩ := slice_time_eq_some hx
          have hzstop : z.stopT = x.stopT := stopT_congr hzr hzst hzsz
          refine ⟨hzr.trans hxr, hr, ?_, ?_, ?_, ?_, ?_⟩
          · rw [hzst]; exact hxa0
          · rw [hzst]; exact hxw0
          · rw [hzstop]; exact hxa1
          · rw [hzstop]; exact hxw1
          · rw [hzst, hzstop]; exact hxne
  · rw [if_neg hr] at h
    exact Option.noConfusion h

end SyncSignal

namespace SignalSet

/-- Shape of a successful `merge`. -/
theorem merge_eq_ok {a b c : SignalSet} (h : a.merge b = .ok c) :
    Tags.union a.tags b.tags = .ok c.tags ∧
    c.signals = List.insertionSort byStart
      ((a.signals.map (fun ra => b.signals.filterMap
        (fun rb => ra.intersect_channels rb))).flatten) := by
  unfold merge at h
  cases hu : Tags.union a.tags b.tags with
  | error e =>
    rw [hu] at h
    exact Except.noConfusion h
  | ok t =>
    rw [hu] at h
    cases h
    exact ⟨rfl, rfl⟩

/-- Runs of a successful `merge` are exactly the non-empty pairwise
channel intersections. -/
theorem merge_run_mem {a b c : SignalSet} (h : a.merge b = .ok c) {r : SyncSignal} :
    r ∈ c.signals ↔ ∃ ra ∈ a.signals, ∃ rb ∈ b.signals,
      ra.intersect_channels rb = some r := by
  obtain ⟨-, hsig⟩ := merge_eq_ok h
  rw [hsig, (List.perm_insertionSort byStart _).mem_iff]
  constructor
  · intro hmem
    obtain ⟨l, hl, hrl⟩ := List.mem_flatten.mp hmem
    obtain ⟨ra, hra, rfl⟩ := List.mem_map.mp hl
    obtain ⟨rb, hrb, hint⟩ := List.mem_filterMap.mp hrl
    exact ⟨ra, hra, rb, hrb, hint⟩
  · rintro ⟨ra, hra, rb, hrb, hint⟩
    exact List.mem_flatten.mpr ⟨_, List.mem_map_of_mem _ hra,
      List.mem_filterMap.mpr ⟨rb, hrb, hint⟩⟩

end SignalSet

/-- A successful `joinAll` keeps the accumulator's tags, forces every summand
to carry those tags, and its runs are exactly all the operands' runs. -/
theorem joinAll_ok_facts :
    ∀ {s : SignalSet} {ts : List SignalSet} {u : SignalSet},
      Inventory.joinAll s ts = .ok u →
      u.tags = s.tags ∧
      u.signals.Perm (s.signals ++ (ts.map SignalSet.signals).flatten) ∧
      ∀ m ∈ ts, m.tags = s.tags := by
  intro s ts
  induction ts generalizing s with
  | nil =>
    intro u h
    have hu : s = u := Except.ok.inj h
    subst hu
    exact ⟨rfl, by simp, by simp⟩
  | cons t ts ih =>
    intro u h
    unfold Inventory.joinAll at h
    cases hj : s.join t with
    | error e =>
      rw [hj] at h
      exact Except.noConfusion h
    | ok w =>
      rw [hj] at h
      obtain ⟨htag, hwt, hwsig⟩ := SignalSet.join_eq_ok hj
      obtain ⟨hut, huperm, huni⟩ := ih h
      refine ⟨hut.trans hwt, ?_, ?_⟩
      · refine (huperm.trans ?_)
        rw [hwsig]
        have hp := (List.perm_insertionSort SignalSet.byStart
          (s.signals ++ t.signals)).append_right ((ts.map SignalSet.signals).flatten)
        rw [List.append_assoc] at hp
        simpa using hp
      · intro m hm
        rcases List.mem_cons.mp hm with hm1 | hm2
        · rw [hm1]; exact htag.symm
        · exact (huni m hm2).trans hwt

/-- `joinGroups` succeeds exactly when every group joins, giving one result
per group. -/
theorem joinGroups_ok_forall :
    ∀ {gs : List (List SignalSet)} {reps : List SignalSet},
      Inventory.joinGroups gs = .ok reps →
      List.Forall₂ (fun g r => Inventory.joinGroup g = .ok r) gs reps := by
  intro gs
  induction gs with
  | nil =>
    intro reps h
    have : ([] : List SignalSet) = reps := Except.ok.inj h
    rw [← this]
    exact List.Forall₂.nil
  | cons g gs ih =>
    intro reps h
    unfold Inventory.joinGroups at h
    cases hg : Inventory.joinGroup g with
    | error e =>
      rw [hg] at h
      exact Except.noConfusion h
    | ok r =>
      rw [hg] at h
      cases hgs : Inventory.joinGroups gs with
      | error e =>
        rw [hgs] at h
        exact Except.noConfusion h
      | ok rs =>
        rw [hgs] at h
        have : (r :: rs) = reps := Except.ok.inj h
        rw [← this]
        exact List.Forall₂.cons hg (ih hgs)

/-- Facts about a successfully joined group: its tags are every member's
tags and its runs are the members' runs. -/
theorem joinGroup_ok_facts {g : List SignalSet} {u : SignalSet}
    (h : Inventory.joinGroup g = .ok u) :
    (∀ m ∈ g, m.tags = u.tags) ∧
    u.signals.Perm ((g.map SignalSet.signals).flatten) := by
  cases g with
  | nil => exact Except.noConfusion h
  | cons s ss =>
    obtain ⟨hut, huperm, huni⟩ := joinAll_ok_facts (h : Inventory.joinAll s ss = .ok u)
    refine ⟨?_, by simpa using huperm⟩
    intro m hm
    rcases List.mem_cons.mp hm with hm1 | hm2
    · rw [hm1]; exact hut.symm
    · exact (huni m hm2).trans hut.symm

/-- Every run of a `mergeAll` result is, for the accumulator and for every
merged operand, contained (same rate, nested interval) in one of its runs. -/
theorem mergeAll_run_origin :
    ∀ {acc : SignalSet} {reps : List SignalSet} {m : SignalSet},
      Inventory.mergeAll acc reps = .ok m →
      ∀ r ∈ m.signals,
        (∃ ra ∈ acc.signals, r.sampling_rate = ra.sampling_rate ∧
          ra.start ≤ r.start ∧ r.stopT ≤ ra.stopT ∧ r.start ≤ r.stopT) ∧
        ∀ g ∈ reps, ∃ rg ∈ g.signals, r.sampling_rate = rg.sampling_rate ∧
          rg.start ≤ r.start ∧ r.stopT ≤ rg.stopT := by
  intro acc reps
  induction reps generalizing acc with
  | nil =>
    intro m h r hr
    have hm : acc = m := Except.ok.inj h
    subst hm
    refine ⟨⟨r, hr, rfl, le_refl _, le_refl _, ?_⟩, by simp⟩
    have h1 := r.start_le_stopT
    exact h1
  | cons g gs ih =>
    intro m h r hr
    unfold Inventory.mergeAll at h
    cases hm : acc.merge g with
    | error e =>
      rw [hm] at h
      exact Except.noConfusion h
    | ok w =>
      rw [hm] at h
      obtain ⟨⟨rw0, hrw0, hrate, hs0, hs1, hne⟩, hrest⟩ := ih h r hr
      obtain ⟨ra, hra, rb, hrb, hint⟩ := (SignalSet.merge_run_mem hm).mp hrw0
      obtain ⟨hir, hiab, hia0, hib0, hia1, hib1, hine⟩ :=
        SyncSignal.intersect_channels_eq_some hint
      refine ⟨⟨ra, hra, ?_, ?_, ?_, hne⟩, ?_⟩
      · rw [hrate, hir]
      · exact le_trans hia0 hs0
      · exact le_trans hs1 hia1
      · intro g' hg'
        rcases List.mem_cons.mp hg' with hg1 | hg2
        · subst hg1
          exact ⟨rb, hrb, by rw [hrate, hir, hiab], le_trans hib0 hs0, le_trans hs1 hib1⟩
        · exact hrest g' hg2

/-- Tag names produced by a successful registry union: the concatenation. -/
theorem union_ok_names {a b t : Tags} (h : Tags.union a b = .ok t) :
    t.names = a.names ++ b.names := by
  unfold Tags.union at h
  by_cases hc : a.names.any (fun n => b.names.contains n) = true
  · rw [if_pos hc] at h
    exact Except.noConfusion h
  · rw [if_neg hc] at h
    cases h
    simp [Tags.names]

/-- Tag names of a `mergeAll` result: accumulator's names then every
operand's names. -/
theorem mergeAll_names :
    ∀ {acc : SignalSet} {reps : List SignalSet} {m : SignalSet},
      Inventory.mergeAll acc reps = .ok m →
      m.tags.names = acc.tags.names ++ (reps.map (fun g => g.tags.names)).flatten := by
  intro acc reps
  induction reps generalizing acc with
  | nil =>
    intro m h
    have hm : acc = m := Except.ok.inj h
    subst hm
    simp
  | cons g gs ih =>
    intro m h
    unfold Inventory.mergeAll at h
    cases hm : acc.merge g with
    | error e =>
      rw [hm] at h
      exact Except.noConfusion h
    | ok w =>
      rw [hm] at h
      obtain ⟨hu, -⟩ := SignalSet.merge_eq_ok hm
      have hw := union_ok_names hu
      rw [ih h, hw]
      simp

/-- Destructuring of a `pack` that produced a `SignalSet`. -/
theorem pack_eq_some {I : Inventory} {S : SignalSet} (h : I.pack = .ok (some S)) :
    ∃ r0 rs, Inventory.joinGroups (Inventory.groupByTags I.signalsets) = .ok (r0 :: rs) ∧
      Inventory.mergeAll r0 rs = .ok S ∧ S.signals ≠ [] := by
  unfold Inventory.pack at h
  cases hj : Inventory.joinGroups (Inventory.groupByTags I.signalsets) with
  | error e =>
    rw [hj] at h
    exact Except.noConfusion h
  | ok reps =>
    rw [hj] at h
    cases reps with
    | nil => exact Option.noConfusion (Except.ok.inj h)
    | cons r0 rs =>
      have h2 : (match Inventory.mergeAll r0 rs with
          | .error e => .error e
          | .ok m => .ok (if m.signals.isEmpty then none else some m)) =
          (.ok (some S) : Except SigError (Option SignalSet)) := h
      cases hm : Inventory.mergeAll r0 rs with
      | error e =>
        rw [hm] at h2
        exact Except.noConfusion h2
      | ok m =>
        rw [hm] at h2
        have h3 : (.ok (if m.signals.isEmpty then none else some m) :
            Except SigError (Option SignalSet)) = .ok (some S) := h2
        by_cases he : m.signals.isEmpty
        · rw [if_pos he] at h3
          exact Option.noConfusion (Except.ok.inj h3)
        · rw [if_neg he] at h3
          have hms : m = S := Option.some.inj (Except.ok.inj h3)
          subst hms
          refine ⟨r0, rs, rfl, hm, ?_⟩
          intro hnil
          exact he (by rw [hnil]; rfl)

/-- Inserting into the grouping adds the new member to the collection. -/
theorem insertGroup_flatten (s : SignalSet) :
    ∀ gs : List (List SignalSet),
      (Inventory.insertGroup s gs).flatten.Perm (s :: gs.flatten) := by
  intro gs
  induction gs with
  | nil => simp [Inventory.insertGroup]
  | cons g gs ih =>
    unfold Inventory.insertGroup
    by_cases hc : g.head?.map SignalSet.tags = some s.tags
    · rw [if_pos hc]
      simp only [List.flatten_cons]
      have h1 : (g ++ [s]) ++ gs.flatten = g ++ s :: gs.flatten := by simp
      rw [h1]
      exact List.perm_middle
    · rw [if_neg hc]
      simp only [List.flatten_cons]
      have h1 := ih.append_left g
      exact h1.trans List.perm_middle

/-- Grouping is a partition: the groups' members are the original list. -/
theorem groupAux_flatten :
    ∀ (l : List SignalSet) (gs : List (List SignalSet)),
      (Inventory.groupAux gs l).flatten.Perm (gs.flatten ++ l) := by
  intro l
  induction l with
  | nil =>
    intro gs
    simp [Inventory.groupAux]
  | cons s ss ih =>
    intro gs
    unfold Inventory.groupAux
    refine (ih (Inventory.insertGroup s gs)).trans ?_
    refine ((insertGroup_flatten s gs).append_right ss).trans ?_
    exact List.perm_middle.symm

/-- The groups of `groupByTags` partition the original member list. -/
theorem groupByTags_flatten (l : List SignalSet) :
    (Inventory.groupByTags l).flatten.Perm l := by
  simpa using groupAux_flatten l []

/-- Contained intervals of non-degenerate runs overlap. -/
theorem overlaps_of_contained {r ru : SyncSignal} (h0 : ru.start ≤ r.start)
    (h1 : r.stopT ≤ ru.stopT) (h2 : r.start ≤ r.stopT) : r.overlapsT ru := by
  unfold SyncSignal.overlapsT
  exact max_le (le_min h2 (h2.trans h1)) (le_min (h0.trans h2) ((h0.trans h2).trans h1))

/-- Positional correspondence transports membership to the left. -/
theorem forall2_mem_left {α β : Type} {R : α → β → Prop} :
    ∀ {l1 : List α} {l2 : List β}, List.Forall₂ R l1 l2 →
      ∀ a ∈ l1, ∃ b ∈ l2, R a b := by
  intro l1 l2 hf
  induction hf with
  | nil => intro a ha; exact absurd ha (by simp)
  | cons hab _ ih =>
    intro a ha
    rcases List.mem_cons.mp ha with h1 | h2
    · exact ⟨_, by simp, h1 ▸ hab⟩
    · obtain ⟨b, hb, hr⟩ := ih a h2
      exact ⟨b, by simp [hb], hr⟩

/-- Positional correspondence turns an existential over one list into an
existential over the other, given a pointwise equivalence. -/
theorem forall2_exists_iff {α β : Type} {R : α → β → Prop} {P : α → Prop} {Q : β → Prop}
    (hPQ : ∀ a b, R a b → (P a ↔ Q b)) :
    ∀ {l1 : List α} {l2 : List β}, List.Forall₂ R l1 l2 →
      ((∃ a ∈ l1, P a) ↔ ∃ b ∈ l2, Q b) := by
  intro l1 l2 hf
  induction hf with
  | nil => simp
  | cons hab _ ih =>
    constructor
    · rintro ⟨x, hx, hPx⟩
      rcases List.mem_cons.mp hx with h1 | h2
      · exact ⟨_, by simp, (hPQ _ _ hab).mp (h1 ▸ hPx)⟩
      · obtain ⟨y, hy, hQy⟩ := ih.mp ⟨x, h2, hPx⟩
        exact ⟨y, by simp [hy], hQy⟩
    · rintro ⟨y, hy, hQy⟩
      rcases List.mem_cons.mp hy with h1 | h2
      · exact ⟨_, by simp, (hPQ _ _ hab).mpr (h1 ▸ hQy)⟩
      · obtain ⟨x, hx, hPx⟩ := ih.mpr ⟨y, h2, hQy⟩
        exact ⟨x, by simp [hx], hPx⟩

/-- A successfully joined group is non-empty and its tag names are any
member's tag names. -/
theorem joinGroup_names_iff {g : List SignalSet} {u : SignalSet}
    (h : Inventory.joinGroup g = .ok u) (n : String) :
    (∃ m ∈ g, n ∈ m.tags.names) ↔ n ∈ u.tags.names := by
  obtain ⟨htags, -⟩ := joinGroup_ok_facts h
  cases g with
  | nil => exact Except.noConfusion h
  | cons s ss =>
    constructor
    · rintro ⟨m, hm, hn⟩
      rw [← htags m hm]
      exact hn
    · intro hn
      exact ⟨s, by simp, by rw [htags s (by simp)]; exact hn⟩

/-- C1 as stated is refuted by the site-3 sub-inventory: `pack` joins the
two identically-tagged members, so its output keeps the 512 Hz run even
though the 1024 Hz member contributed no run of that rate. -/
theorem C1_counterexample : ¬ C1asStated := by
  intro h
  obtain ⟨-, hruns⟩ := h inv3 packed3 rfl
  obtain ⟨ru, hru, hrate, -⟩ := hruns (mkRun 5 148481 512 10) (List.mem_cons_self _ _)
    signal_3b (by simp [inv3])
  have hru2 : ru = mkRun 5 153601 1024 350 := List.mem_singleton.mp hru
  rw [hru2] at hrate
  exact absurd hrate (by decide)

/-- C1, amended: whenever `pack` yields a `SignalSet`, its tag-name set is
the union of all input tag names, and every output run has, in every
GROUP of identically-tagged members (which `pack` first joins), a member
holding a run of the same sampling rate overlapping the output run's
interval. -/
theorem C1_pack_runs_from_every_tag_group (I : Inventory) (S : SignalSet)
    (h : I.pack = .ok (some S)) :
    (∀ n, n ∈ S.tags.names ↔ ∃ m ∈ I.signalsets, n ∈ m.tags.names) ∧
    (∀ r ∈ S.signals, ∀ g ∈ Inventory.groupByTags I.signalsets,
      ∃ m ∈ g, ∃ ru ∈ m.signals,
        r.sampling_rate = ru.sampling_rate ∧ r.overlapsT ru) := by
  obtain ⟨r0, rs, hjg, hma, -⟩ := pack_eq_some h
  have hfa := joinGroups_ok_forall hjg
  constructor
  · intro n
    have hnames := mergeAll_names hma
    have hsplit : n ∈ S.tags.names ↔ ∃ rep ∈ r0 :: rs, n ∈ rep.tags.names := by
      rw [hnames]
      simp only [List.mem_append, List.mem_flatten, List.mem_map, List.mem_cons]
      constructor
      · rintro (h1 | ⟨l, ⟨rep, hrep, rfl⟩, hn⟩)
        · exact ⟨r0, Or.inl rfl, h1⟩
        · exact ⟨rep, Or.inr hrep, hn⟩
      · rintro ⟨rep, hrep | hrep, hn⟩
        · exact Or.inl (hrep ▸ hn)
        · exact Or.inr ⟨_, ⟨rep, hrep, rfl⟩, hn⟩
    have hgroups : (∃ g ∈ Inventory.groupByTags I.signalsets, ∃ m ∈ g, n ∈ m.tags.names) ↔
        ∃ rep ∈ r0 :: rs, n ∈ rep.tags.names :=
      @forall2_exists_iff (List SignalSet) SignalSet
        (fun g rep => Inventory.joinGroup g = .ok rep)
        (fun g => ∃ m ∈ g, n ∈ m.tags.names) (fun rep => n ∈ rep.tags.names)
        (fun _ _ hgr => joinGroup_names_iff hgr n) _ _ hfa
    have hflat : (∃ m ∈ I.signalsets, n ∈ m.tags.names) ↔
        ∃ g ∈ Inventory.groupByTags I.signalsets, ∃ m ∈ g, n ∈ m.tags.names := by
      constructor
      · rintro ⟨m, hm, hn⟩
        have hm2 : m ∈ (Inventory.groupByTags I.signalsets).flatten :=
          (groupByTags_flatten I.signalsets).mem_iff.mpr hm
        obtain ⟨g, hg, hmg⟩ := List.mem_flatten.mp hm2
        exact ⟨g, hg, m, hmg, hn⟩
      · rintro ⟨g, hg, m, hmg, hn⟩
        have hm2 : m ∈ (Inventory.groupByTags I.signalsets).flatten :=
          List.mem_flatten.mpr ⟨g, hg, hmg⟩
        exact ⟨m, (groupByTags_flatten I.signalsets).mem_iff.mp hm2, hn⟩
    rw [hsplit, hflat, hgroups]
  · intro r hr g hg
    obtain ⟨⟨ra, hra, hrt0, h00, h1a0, hne⟩, hrest⟩ := mergeAll_run_origin hma r hr
    have hreps : ∀ rep ∈ r0 :: rs, ∃ rg ∈ rep.signals,
        r.sampling_rate = rg.sampling_rate ∧ rg.start ≤ r.start ∧ r.stopT ≤ rg.stopT := by
      intro rep hrep
      rcases List.mem_cons.mp hrep with h1 | h2
      · exact ⟨ra, h1 ▸ hra, hrt0, h00, h1a0⟩
      · exact hrest rep h2
    obtain ⟨rep, hrep, hjoing⟩ := forall2_mem_left hfa g hg
    obtain ⟨rg, hrg, hrt, h0, h1a⟩ := hreps rep hrep
    obtain ⟨-, hperm⟩ := joinGroup_ok_facts hjoing
    have hrg2 : rg ∈ (g.map SignalSet.signals).flatten := hperm.mem_iff.mp hrg
    obtain ⟨l, hl, hrgl⟩ := List.mem_flatten.mp hrg2
    obtain ⟨m, hm, rfl⟩ := List.mem_map.mp hl
    exact ⟨m, hm, rg, hrgl, hrt, overlaps_of_contained h0 h1a hne⟩

/-- Witness for the amended C1 at the site-3 sub-inventory. -/
theorem C1_witness :
    (∀ n, n ∈ packed3.tags.names ↔ ∃ m ∈ inv3.signalsets, n ∈ m.tags.names) ∧
    (∀ r ∈ packed3.signals, ∀ g ∈ Inventory.groupByTags inv3.signalsets,
      ∃ m ∈ g, ∃ ru ∈ m.signals,
        r.sampling_rate = ru.sampling_rate ∧ r.overlapsT ru) :=
  C1_pack_runs_from_every_tag_group inv3 packed3 rfl

namespace SyncSignal

/-- Runs whose closed intervals are separated do not overlap. -/
theorem not_overlapsT_of_lt {a b : SyncSignal} (h : a.stopT < b.start) :
    ¬ a.overlapsT b := by
  unfold overlapsT
  intro hle
  have h1 : b.start ≤ max a.start b.start := le_max_right _ _
  have h2 : min a.stopT b.stopT ≤ a.stopT := min_le_left _ _
  linarith

/-- Runs whose closed intervals are separated do not overlap (other side). -/
theorem not_overlapsT_of_lt' {a b : SyncSignal} (h : b.stopT < a.start) :
    ¬ a.overlapsT b :=
  fun hab => not_overlapsT_of_lt h (overlapsT_symm.mp hab)

/-- When a cut time is not on the sample grid, no sample hits it. -/
theorem tIdx_ne_of_den {r : SyncSignal} {t : ℚ}
    (hg : ((t - r.start) * r.sampling_rate).den ≠ 1) :
    ∀ k : ℕ, r.tIdx k ≠ t := by
  intro k heq
  apply hg
  have hρ := r.rate_pos
  have h0 : t - r.start = (k : ℚ) / r.sampling_rate := by
    rw [← heq]
    unfold tIdx
    ring
  rw [h0, div_mul_cancel₀ _ hρ.ne']
  have hcast : ((k : ℚ)) = ((k : ℤ) : ℚ) := by push_cast; rfl
  rw [hcast, Rat.den_intCast]

/-- The lower slice index never exceeds the sample count. -/
theorem sliceLo_le_size (s : SyncSignal) (t0 : ℚ) : s.sliceLo t0 ≤ s.size := by
  unfold sliceLo
  omega

/-- Off the sample grid, the first index at or after `t` and the count of
indices at or before `t` agree. -/
theorem sliceLo_eq_sliceHi_of_offgrid (r : SyncSignal) {t : ℚ}
    (hg : ∀ k : ℕ, r.tIdx k ≠ t) : r.sliceLo t = r.sliceHi t := by
  have hLs := r.sliceLo_le_size t
  have hHs := r.sliceHi_le_size t
  rcases lt_trichotomy (r.sliceLo t) (r.sliceHi t) with h | h | h
  · exfalso
    have hk : r.sliceLo t < r.size := lt_of_lt_of_le h hHs
    have h1 : t ≤ r.tIdx (r.sliceLo t) := (r.sliceLo_le_iff hk).mp le_rfl
    have h2 : r.tIdx (r.sliceLo t) ≤ t := (r.lt_sliceHi_iff hk).mp h
    exact hg _ (le_antisymm h2 h1)
  · exact h
  · exfalso
    have hk : r.sliceHi t < r.size := lt_of_lt_of_le h hLs
    have h1 : ¬ (r.sliceLo t ≤ r.sliceHi t) := not_le.mpr h
    rw [r.sliceLo_le_iff hk] at h1
    have h2 : ¬ (r.sliceHi t < r.sliceHi t) := lt_irrefl _
    rw [r.lt_sliceHi_iff hk] at h2
    push_neg at h1 h2
    linarith

/-- Ordered cut times give ordered slice indices. -/
theorem sliceLo_le_sliceHi (r : SyncSignal) {t0 t1 : ℚ} (h : t0 ≤ t1) :
    r.sliceLo t0 ≤ r.sliceHi t1 := by
  by_contra hlt
  push_neg at hlt
  have hk : r.sliceHi t1 < r.size := lt_of_lt_of_le hlt (r.sliceLo_le_size t0)
  have h1 : ¬ (r.sliceLo t0 ≤ r.sliceHi t1) := not_le.mpr hlt
  rw [r.sliceLo_le_iff hk] at h1
  have h2 : ¬ (r.sliceHi t1 < r.sliceHi t1) := lt_irrefl _
  rw [r.lt_sliceHi_iff hk] at h2
  push_neg at h1 h2
  linarith

/-- The window bounded by the stop time covers every sample. -/
theorem sliceHi_stopT (r : SyncSignal) : r.sliceHi r.stopT = r.size := by
  refine le_antisymm (r.sliceHi_le_size _) ?_
  have hk : r.size - 1 < r.size := by have := r.size_pos; omega
  have h1 : r.size - 1 < r.sliceHi r.stopT :=
    (r.lt_sliceHi_iff hk).mpr (by rw [← r.stopT_eq_tIdx])
  omega

/-- The window bounded below by the start time covers every sample. -/
theorem sliceLo_start (r : SyncSignal) : r.sliceLo r.start = 0 := by
  have hk : 0 < r.size := r.size_pos
  have h1 := (r.sliceLo_le_iff hk).mpr (le_of_eq (r.tIdx_zero).symm)
  omega

/-- An empty slice means the index window is empty. -/
theorem slice_time_eq_none {s : SyncSignal} {t0 t1 : ℚ}
    (h : s.slice_time t0 t1 = none) : s.sliceHi t1 ≤ s.sliceLo t0 := by
  unfold slice_time at h
  by_cases hlt : s.sliceLo t0 < s.sliceHi t1
  · rw [dif_pos hlt] at h
    exact Option.noConfusion h
  · omega

/-- Sample times of a slice are the original run's, shifted. -/
theorem slice_time_tIdx {r out : SyncSignal} {t0 t1 : ℚ}
    (h : r.slice_time t0 t1 = some out) (k : ℕ) :
    out.tIdx k = r.tIdx (r.sliceLo t0 + k) := by
  obtain ⟨-, -, -, hrt, hst, -⟩ := slice_time_eq_some h
  rw [r.tIdx_add]
  show out.start + (k : ℚ) / out.sampling_rate =
    r.tIdx (r.sliceLo t0) + (k : ℚ) / r.sampling_rate
  rw [hst, hrt]

end SyncSignal

/-- The samples of a slice are exactly the original's samples whose index
lies in the slice's index window. -/
theorem runSample_slice {r out : SyncSignal} {t0 t1 : ℚ}
    (h : r.slice_time t0 t1 = some out) (c : ℕ) (t v : ℚ) :
    runSample out c t v ↔
      c < r.nb_ch ∧ ∃ j, r.sliceLo t0 ≤ j ∧ j < r.sliceHi t1 ∧
        t = r.tIdx j ∧ v = r.data c j := by
  obtain ⟨hlt, hnb, hsz, -, -, hdata⟩ := SyncSignal.slice_time_eq_some h
  unfold runSample
  constructor
  · rintro ⟨hc, k, hk, ht, hv⟩
    rw [hsz] at hk
    refine ⟨hnb ▸ hc, r.sliceLo t0 + k, by omega, by omega, ?_, ?_⟩
    · rw [ht, SyncSignal.slice_time_tIdx h]
    · simp only [hv, hdata]
  · rintro ⟨hc, j, hj0, hj1, ht, hv⟩
    refine ⟨by rw [hnb]; exact hc, j - r.sliceLo t0, by rw [hsz]; omega, ?_, ?_⟩
    · rw [ht, SyncSignal.slice_time_tIdx h]
      congr 1
      omega
    · simp only [hv, hdata]
      congr 2
      omega

/-- C6 as stated is refuted at grid-aligned cut points: on a 1 Hz run over
`[0, 10]`, the window `[3, 7]` is extracted as `[3, 7]` while the exclusion
remainders are `[0, 3]` and `[7, 10]` (closed cut points, as in the
reference walkthrough), so the two parts share the boundary samples and
`join` fails with `OverlapError` instead of reconstructing the original. -/
theorem C6_counterexample : ¬ C6asStated := by
  intro h
  obtain ⟨v, hv, -, -⟩ := h exRun 3 7 (by norm_num)
    ⟨mkRun 1 11 1 0, List.mem_singleton.mpr rfl, by decide, by decide⟩
  have hj : (exRun.extract_t 3 7 false).join (exRun.extract_t 3 7 true) =
      .error .overlapError := rfl
  exact Except.noConfusion (hv.symm.trans hj)

/-- C6, amended: on a single-run signal set, for cut points strictly inside
the run's span that do not lie on the sample grid, joining the extraction
with the exclusion succeeds and reconstructs the run's sample content
exactly: the total sample count is preserved and the carried samples
(channel, time, value) are the same. -/
theorem C6_roundtrip_off_grid (tg : Tags) (r : SyncSignal) (t0 t1 : ℚ)
    (h01 : t0 < t1) (hin0 : r.start < t0) (hin1 : t1 < r.stopT)
    (hg0 : ((t0 - r.start) * r.sampling_rate).den ≠ 1)
    (hg1 : ((t1 - r.start) * r.sampling_rate).den ≠ 1) :
    ∃ v, ((⟨tg, [r]⟩ : SignalSet).extract_t t0 t1 false).join
        ((⟨tg, [r]⟩ : SignalSet).extract_t t0 t1 true) = .ok v ∧
      sizeSum v = sizeSum ⟨tg, [r]⟩ ∧
      ∀ c t val, SampleAt v c t val ↔ SampleAt ⟨tg, [r]⟩ c t val := by
  have hszp := r.size_pos
  have hne0 := SyncSignal.tIdx_ne_of_den hg0
  have hne1 := SyncSignal.tIdx_ne_of_den hg1
  have e1 : r.sliceLo r.start = 0 := r.sliceLo_start
  have e2 : r.sliceHi r.stopT = r.size := r.sliceHi_stopT
  have e3 : r.sliceLo t0 = r.sliceHi t0 := r.sliceLo_eq_sliceHi_of_offgrid hne0
  have e4 : r.sliceLo t1 = r.sliceHi t1 := r.sliceLo_eq_sliceHi_of_offgrid hne1
  have e5 : r.sliceLo t0 ≤ r.sliceHi t1 := r.sliceLo_le_sliceHi h01.le
  obtain ⟨l, hL⟩ := SyncSignal.slice_time_isSome_iff.mpr
    (show ∃ k, k < r.size ∧ r.start ≤ r.tIdx k ∧ r.tIdx k ≤ t0 from
      ⟨0, hszp, le_of_eq (r.tIdx_zero).symm, by rw [r.tIdx_zero]; exact hin0.le⟩)
  obtain ⟨tt, hT⟩ := SyncSignal.slice_time_isSome_iff.mpr
    (show ∃ k, k < r.size ∧ t1 ≤ r.tIdx k ∧ r.tIdx k ≤ r.stopT from
      ⟨r.size - 1, by omega, by rw [← r.stopT_eq_tIdx]; exact hin1.le,
        le_of_eq r.stopT_eq_tIdx.symm⟩)
  obtain ⟨hlquant, hlnb, hlsz, hlrt, hlst, -⟩ := SyncSignal.slice_time_eq_some hL
  obtain ⟨htquant, htnb, htsz, htrt, htst, -⟩ := SyncSignal.slice_time_eq_some hT
  have hA1 : 0 < r.sliceHi t0 := by omega
  have hBsz : r.sliceLo t1 < r.size := by omega
  have hlstop : l.stopT = r.tIdx (r.sliceHi t0 - 1) := SyncSignal.slice_time_stopT hL
  have hexf : (⟨tg, [r]⟩ : SignalSet).extract_t t0 t1 false =
      ⟨tg, (r.slice_time t0 t1).toList⟩ := by
    unfold SignalSet.extract_t
    rw [if_neg (by simp)]
    cases hM2 : r.slice_time t0 t1 <;> simp [hM2]
  have hexc : (⟨tg, [r]⟩ : SignalSet).extract_t t0 t1 true = ⟨tg, [l, tt]⟩ := by
    unfold SignalSet.extract_t
    rw [if_pos rfl]
    show (⟨tg, ([r].map (fun x => x.exclude_time t0 t1)).flatten⟩ : SignalSet) = _
    unfold SyncSignal.exclude_time
    simp [hL, hT]
  have hSsamp : ∀ c t val, SampleAt ⟨tg, [r]⟩ c t val ↔ runSample r c t val := by
    intro c t val
    constructor
    · rintro ⟨piece, hpiece, hrs⟩
      have hpr : piece = r := by simpa using hpiece
      exact hpr ▸ hrs
    · intro hrs
      exact ⟨r, by simp, hrs⟩
  cases hM : r.slice_time t0 t1 with
  | none =>
    have hABeq : r.sliceHi t1 ≤ r.sliceLo t0 := SyncSignal.slice_time_eq_none hM
    rw [hexf, hexc, hM]
    have hpw : List.Pairwise (fun a b : SyncSignal => ¬ a.overlapsT b)
        ((⟨tg, (none : Option SyncSignal).toList⟩ : SignalSet).signals ++
          (⟨tg, [l, tt]⟩ : SignalSet).signals) := by
      show List.Pairwise _ [l, tt]
      have hlt : l.stopT < tt.start := by
        rw [hlstop, htst]
        exact r.tIdx_strict_mono (by omega)
      exact List.Pairwise.cons
        (fun u hu => by
          have : u = tt := by simpa using hu
          exact this ▸ SyncSignal.not_overlapsT_of_lt hlt)
        (List.pairwise_singleton _ _)
    have hjoin := SignalSet.join_ok_of_disjoint
      (show (⟨tg, (none : Option SyncSignal).toList⟩ : SignalSet).tags =
        (⟨tg, [l, tt]⟩ : SignalSet).tags from rfl) hpw
    refine ⟨_, hjoin, ?_, ?_⟩
    · have hperm := List.perm_insertionSort SignalSet.byStart
        ((⟨tg, (none : Option SyncSignal).toList⟩ : SignalSet).signals ++
          (⟨tg, [l, tt]⟩ : SignalSet).signals)
      have hsum := (hperm.map (·.size)).sum_eq
      unfold sizeSum
      rw [hsum]
      show l.size + (tt.size + 0) = r.size + 0
      rw [hlsz, htsz, e1, e2]
      omega
    · intro c t val
      rw [hSsamp]
      constructor
      · rintro ⟨piece, hpiece, hrs⟩
        have hpiece2 : piece ∈ [l, tt] :=
          (List.perm_insertionSort SignalSet.byStart _).mem_iff.mp hpiece
        have hp3 : piece = l ∨ piece = tt := by simpa using hpiece2
        rcases hp3 with rfl | rfl
        · obtain ⟨hc, j, hj0, hj1, ht, hv⟩ := (runSample_slice hL c t val).mp hrs
          exact ⟨hc, j, by omega, ht, hv⟩
        · obtain ⟨hc, j, hj0, hj1, ht, hv⟩ := (runSample_slice hT c t val).mp hrs
          exact ⟨hc, j, by omega, ht, hv⟩
      · rintro ⟨hc, k, hk, ht, hv⟩
        by_cases hkA : k < r.sliceHi t0
        · refine ⟨l, (List.perm_insertionSort SignalSet.byStart _).mem_iff.mpr (by simp), ?_⟩
          exact (runSample_slice hL c t val).mpr ⟨hc, k, by omega, by omega, ht, hv⟩
        · refine ⟨tt, (List.perm_insertionSort SignalSet.byStart _).mem_iff.mpr (by simp), ?_⟩
          exact (runSample_slice hT c t val).mpr ⟨hc, k, by omega, by omega, ht, hv⟩
  | some m =>
    obtain ⟨hmquant, hmnb, hmsz, hmrt, hmst, -⟩ := SyncSignal.slice_time_eq_some hM
    have hmstop : m.stopT = r.tIdx (r.sliceHi t1 - 1) := SyncSignal.slice_time_stopT hM
    rw [hexf, hexc, hM]
    have hlm : l.stopT < m.start := by
      rw [hlstop, hmst]
      exact r.tIdx_strict_mono (by omega)
    have hmt : m.stopT < tt.start := by
      rw [hmstop, htst]
      exact r.tIdx_strict_mono (by omega)
    have hlt2 : l.stopT < tt.start := by
      rw [hlstop, htst]
      exact r.tIdx_strict_mono (by omega)
    have hpw : List.Pairwise (fun a b : SyncSignal => ¬ a.overlapsT b)
        ((⟨tg, (some m).toList⟩ : SignalSet).signals ++
          (⟨tg, [l, tt]⟩ : SignalSet).signals) := by
      show List.Pairwise _ [m, l, tt]
      refine List.Pairwise.cons ?_ (List.Pairwise.cons ?_ (List.pairwise_singleton _ _))
      · intro u hu
        have hu2 : u = l ∨ u = tt := by simpa using hu
        rcases hu2 with rfl | rfl
        · exact SyncSignal.not_overlapsT_of_lt' hlm
        · exact SyncSignal.not_overlapsT_of_lt hmt
      · intro u hu
        have hu2 : u = tt := by simpa using hu
        exact hu2 ▸ SyncSignal.not_overlapsT_of_lt hlt2
    have hjoin := SignalSet.join_ok_of_disjoint
      (show (⟨tg, (some m).toList⟩ : SignalSet).tags =
        (⟨tg, [l, tt]⟩ : SignalSet).tags from rfl) hpw
    refine ⟨_, hjoin, ?_, ?_⟩
    · have hperm := List.perm_insertionSort SignalSet.byStart
        ((⟨tg, (some m).toList⟩ : SignalSet).signals ++
          (⟨tg, [l, tt]⟩ : SignalSet).signals)
      have hsum := (hperm.map (·.size)).sum_eq
      unfold sizeSum
      rw [hsum]
      show m.size + (l.size + (tt.size + 0)) = r.size + 0
      rw [hmsz, hlsz, htsz, e1, e2]
      omega
    · intro c t val
      rw [hSsamp]
      constructor
      · rintro ⟨piece, hpiece, hrs⟩
        have hpiece2 : piece ∈ [m, l, tt] :=
          (List.perm_insertionSort SignalSet.byStart _).mem_iff.mp hpiece
        have hp3 : piece = m ∨ piece = l ∨ piece = tt := by simpa using hpiece2
        rcases hp3 with rfl | rfl | rfl
        · obtain ⟨hc, j, hj0, hj1, ht, hv⟩ := (runSample_slice hM c t val).mp hrs
          exact ⟨hc, j, by omega, ht, hv⟩
        · obtain ⟨hc, j, hj0, hj1, ht, hv⟩ := (runSample_slice hL c t val).mp hrs
          exact ⟨hc, j, by omega, ht, hv⟩
        · obtain ⟨hc, j, hj0, hj1, ht, hv⟩ := (runSample_slice hT c t val).mp hrs
          exact ⟨hc, j, by omega, ht, hv⟩
      · rintro ⟨hc, k, hk, ht, hv⟩
        by_cases hkA : k < r.sliceHi t0
        · refine ⟨l, (List.perm_insertionSort SignalSet.byStart _).mem_iff.mpr (by simp), ?_⟩
          exact (runSample_slice hL c t val).mpr ⟨hc, k, by omega, by omega, ht, hv⟩
        · by_cases hkB : k < r.sliceHi t1
          · refine ⟨m, (List.perm_insertionSort SignalSet.byStart _).mem_iff.mpr (by simp), ?_⟩
            exact (runSample_slice hM c t val).mpr ⟨hc, k, by omega, by omega, ht, hv⟩
          · refine ⟨tt, (List.perm_insertionSort SignalSet.byStart _).mem_iff.mpr (by simp), ?_⟩
            exact (runSample_slice hT c t val).mpr ⟨hc, k, by omega, by omega, ht, hv⟩

/-- Witness for the amended C6: a 1 Hz run over `[0, 10]` cut at the
off-grid times `5/2` and `15/2`. -/
theorem C6_witness :
    ∃ v, (exRun.extract_t (5/2) (15/2) false).join
        (exRun.extract_t (5/2) (15/2) true) = .ok v ∧
      sizeSum v = sizeSum exRun ∧
      ∀ c t val, SampleAt v c t val ↔ SampleAt exRun c t val :=
  C6_roundtrip_off_grid ⟨1, [("ch", [0])]⟩ (mkRun 1 11 1 0) (5/2) (15/2)
    (by norm_num) (by decide) (by decide) (by decide) (by decide)

namespace SyncSignal

/-- Closed form of the lower slice index when the window bound lies a whole
number of sample periods from the start. -/
theorem sliceLo_int (s : SyncSignal) (t' : ℚ) (d : ℤ)
    (hd : (t' - s.start) * s.sampling_rate = (d : ℚ)) :
    s.sliceLo t' = (min (s.size : ℤ) (max 0 d)).toNat := by
  unfold sliceLo
  rw [hd, Int.ceil_intCast]

/-- Closed form of the upper slice index when the window bound lies a whole
number of sample periods from the start. -/
theorem sliceHi_int (s : SyncSignal) (t' : ℚ) (d : ℤ)
    (hd : (t' - s.start) * s.sampling_rate = (d : ℚ)) :
    s.sliceHi t' = (min (s.size : ℤ) (max 0 (d + 1))).toNat := by
  unfold sliceHi
  rw [hd, Int.floor_intCast]

/-- Two grid-aligned runs at the same rate whose closed intervals share an
instant intersect successfully; the intersection covers the instant, keeps
the rate and stays grid-aligned. -/
theorem intersect_covers {ra rb : SyncSignal} {t : ℚ}
    (hrate : ra.sampling_rate = rb.sampling_rate)
    (hala : Aligned ra) (halb : Aligned rb)
    (ha0 : ra.start ≤ t) (ha1 : t ≤ ra.stopT)
    (hb0 : rb.start ≤ t) (hb1 : t ≤ rb.stopT) :
    ∃ z, ra.intersect_channels rb = some z ∧ z.sampling_rate = ra.sampling_rate ∧
      z.start ≤ t ∧ t ≤ z.stopT ∧ Aligned z := by
  have hρ : 0 < ra.sampling_rate := ra.rate_pos
  have hza : (((ra.start * ra.sampling_rate).num : ℤ) : ℚ) = ra.start * ra.sampling_rate :=
    (Rat.den_eq_one_iff _).mp hala
  have hzb : (((rb.start * rb.sampling_rate).num : ℤ) : ℚ) = rb.start * ra.sampling_rate := by
    rw [hrate]
    exact (Rat.den_eq_one_iff _).mp halb
  set za := (ra.start * ra.sampling_rate).num with hzadef
  set zb := (rb.start * rb.sampling_rate).num with hzbdef
  have hsa1 : 1 ≤ ra.size := ra.size_pos
  have hsb1 : 1 ≤ rb.size := rb.size_pos
  have hstopa : ra.stopT * ra.sampling_rate = (za : ℚ) + ((ra.size : ℚ) - 1) := by
    unfold stopT
    rw [add_mul, div_mul_cancel₀ _ hρ.ne', hza]
  have hstopb : rb.stopT * ra.sampling_rate = (zb : ℚ) + ((rb.size : ℚ) - 1) := by
    unfold stopT
    rw [add_mul, hrate, div_mul_cancel₀ _ (hrate ▸ hρ).ne', ← hrate, hzb]
  have F1 : (za : ℚ) ≤ t * ra.sampling_rate := by
    rw [hza]
    exact mul_le_mul_of_nonneg_right ha0 hρ.le
  have F2 : t * ra.sampling_rate ≤ (za : ℚ) + ((ra.size : ℚ) - 1) := by
    rw [← hstopa]
    exact mul_le_mul_of_nonneg_right ha1 hρ.le
  have F3 : (zb : ℚ) ≤ t * ra.sampling_rate := by
    rw [hzb]
    exact mul_le_mul_of_nonneg_right hb0 hρ.le
  have F4 : t * ra.sampling_rate ≤ (zb : ℚ) + ((rb.size : ℚ) - 1) := by
    rw [← hstopb]
    exact mul_le_mul_of_nonneg_right hb1 hρ.le
  have G1 : za ≤ zb + (rb.size : ℤ) - 1 := by
    qify
    linarith [F1.trans F4]
  have G2 : zb ≤ za + (ra.size : ℤ) - 1 := by
    qify
    linarith [F3.trans F2]
  have hd1 : (rb.start - ra.start) * ra.sampling_rate = ((zb - za : ℤ) : ℚ) := by
    rw [sub_mul]
    push_cast
    rw [hza, hzb]
  have hd2 : (rb.stopT - ra.start) * ra.sampling_rate =
      ((zb + (rb.size : ℤ) - 1 - za : ℤ) : ℚ) := by
    rw [sub_mul, hstopb]
    push_cast
    rw [hza]
    ring
  have hd3 : (ra.start - rb.start) * rb.sampling_rate = ((za - zb : ℤ) : ℚ) := by
    rw [← hrate, sub_mul]
    push_cast
    rw [hza, hzb]
  have hd4 : (ra.stopT - rb.start) * rb.sampling_rate =
      ((za + (ra.size : ℤ) - 1 - zb : ℤ) : ℚ) := by
    rw [← hrate, sub_mul, hstopa]
    push_cast
    rw [hzb]
    ring
  have hlo_a := ra.sliceLo_int rb.start (zb - za) hd1
  have hhi_a := ra.sliceHi_int rb.stopT (zb + (rb.size : ℤ) - 1 - za) hd2
  have hlo_b := rb.sliceLo_int ra.start (za - zb) hd3
  have hhi_b := rb.sliceHi_int ra.stopT (za + (ra.size : ℤ) - 1 - zb) hd4
  have hnonempty_a : ra.sliceLo rb.start < ra.sliceHi rb.stopT := by
    rw [hlo_a, hhi_a]
    omega
  have hnonempty_b : rb.sliceLo ra.start < rb.sliceHi ra.stopT := by
    rw [hlo_b, hhi_b]
    omega
  cases hx : ra.slice_time rb.start rb.stopT with
  | none => exact absurd (slice_time_eq_none hx) (by omega)
  | some x =>
    cases hy : rb.slice_time ra.start ra.stopT with
    | none => exact absurd (slice_time_eq_none hy) (by omega)
    | some y =>
      obtain ⟨-, -, hxsz, hxrt, hxst, -⟩ := slice_time_eq_some hx
      obtain ⟨-, -, hysz, hyrt, hyst, -⟩ := slice_time_eq_some hy
      have htIdxa : ∀ k : ℕ, ra.tIdx k * ra.sampling_rate = (za : ℚ) + k := by
        intro k
        unfold tIdx
        rw [add_mul, div_mul_cancel₀ _ hρ.ne', hza]
      have htIdxb : ∀ k : ℕ, rb.tIdx k * ra.sampling_rate = (zb : ℚ) + k := by
        intro k
        unfold tIdx
        rw [add_mul, hrate, div_mul_cancel₀ _ (hrate ▸ hρ).ne', ← hrate, hzb]
      have hZint : za + (ra.sliceLo rb.start : ℤ) = zb + (rb.sliceLo ra.start : ℤ) := by
        rw [hlo_a, hlo_b]
        omega
      have hstart_eq : x.start = y.start := by
        have h1 : x.start * ra.sampling_rate = y.start * ra.sampling_rate := by
          rw [hxst, hyst, htIdxa, htIdxb]
          have := congrArg (fun z : ℤ => (z : ℚ)) hZint
          push_cast at this
          linarith
        exact mul_right_cancel₀ hρ.ne' h1
      have hsize_eq : x.size = y.size := by
        rw [hxsz, hysz, hlo_a, hhi_a, hlo_b, hhi_b]
        omega
      have hrate_xy : x.sampling_rate = y.sampling_rate := by
        rw [hxrt, hyrt]
        exact hrate
      have hc : x.concat_channels y = .ok
          { nb_ch := x.nb_ch + y.nb_ch
            size := x.size
            sampling_rate := x.sampling_rate
            start := x.start
            data := fun c k => if c < x.nb_ch then x.data c k else y.data (c - x.nb_ch) k
            rate_pos := x.rate_pos
            size_pos := x.size_pos } := by
        unfold concat_channels
        rw [if_pos hrate_xy, if_pos ⟨hstart_eq, hsize_eq⟩]
      have hloaZ : ((ra.sliceLo rb.start : ℕ) : ℤ) = max za zb - za := by
        rw [hlo_a]
        omega
      have hsizeZ : ((x.size : ℕ) : ℤ) =
          min (za + (ra.size : ℤ) - 1) (zb + (rb.size : ℤ) - 1) - max za zb + 1 := by
        rw [hxsz, hhi_a, hlo_a]
        omega
      have hloaQ : ((ra.sliceLo rb.start : ℕ) : ℚ) = ((max za zb - za : ℤ) : ℚ) := by
        exact_mod_cast congrArg (fun u : ℤ => (u : ℚ)) hloaZ
      have hmax : max ((za : ℚ)) ((zb : ℚ)) ≤ t * ra.sampling_rate := max_le F1 F3
      have hmin : t * ra.sampling_rate ≤
          min ((za : ℚ) + ((ra.size : ℚ) - 1)) ((zb : ℚ) + ((rb.size : ℚ) - 1)) :=
        le_min F2 F4
      refine ⟨⟨x.nb_ch + y.nb_ch, x.size, x.sampling_rate, x.start,
        fun c k => if c < x.nb_ch then x.data c k else y.data (c - x.nb_ch) k,
        x.rate_pos, x.size_pos⟩, ?_, ?_, ?_, ?_, ?_⟩
      · unfold intersect_channels
        rw [if_pos hrate, hx, hy]
        show (match x.concat_channels y with
          | .ok z => some z
          | .error _ => none) = some _
        rw [hc]
      · exact hxrt
      · show x.start ≤ t
        have h1 : x.start * ra.sampling_rate ≤ t * ra.sampling_rate := by
          rw [hxst, htIdxa, hloaQ]
          push_cast
          have h2 := le_max_left ((za : ℚ)) ((zb : ℚ))
          have h3 := le_max_right ((za : ℚ)) ((zb : ℚ))
          linarith [hmax]
        exact le_of_mul_le_mul_right h1 hρ
      · show t ≤ x.stopT
        have hstopx : x.stopT * ra.sampling_rate =
            x.start * ra.sampling_rate + ((x.size : ℚ) - 1) := by
          unfold stopT
          rw [add_mul, hxrt, div_mul_cancel₀ _ hρ.ne']
        have hsizeQ : ((x.size : ℕ) : ℚ) =
            ((min (za + (ra.size : ℤ) - 1) (zb + (rb.size : ℤ) - 1) - max za zb + 1 : ℤ) : ℚ) := by
          exact_mod_cast congrArg (fun u : ℤ => (u : ℚ)) hsizeZ
        have h1 : t * ra.sampling_rate ≤ x.stopT * ra.sampling_rate := by
          rw [hstopx, hxst, htIdxa, hloaQ, hsizeQ]
          push_cast
          have e1 : ((za : ℚ) + ((ra.size : ℚ) - 1)) = ((za : ℚ) + (ra.size : ℚ) - 1) := by ring
          have e2 : ((zb : ℚ) + ((rb.size : ℚ) - 1)) = ((zb : ℚ) + (rb.size : ℚ) - 1) := by ring
          rw [e1, e2] at hmin
          linarith [hmin]
        exact le_of_mul_le_mul_right h1 hρ
      · show (x.start * x.sampling_rate).den = 1
        have h1 : x.start * x.sampling_rate = ((za + (ra.sliceLo rb.start : ℤ) : ℤ) : ℚ) := by
          rw [hxrt, hxst, htIdxa]
          push_cast
          ring
        rw [h1, Rat.den_intCast]

end SyncSignal

/-- Registry union succeeds on disjoint name sets. -/
theorem union_ok_of_disjoint {a b : Tags} (h : ∀ n ∈ a.names, n ∉ b.names) :
    Tags.union a b = .ok
      ⟨a.nb_ch + b.nb_ch, a.entries ++ b.entries.map (fun p => (p.1, p.2.map (· + a.nb_ch)))⟩ := by
  unfold Tags.union
  rw [if_neg ?hc]
  case hc =>
    intro hany
    obtain ⟨n, hn, hc⟩ := List.any_eq_true.mp hany
    exact h n hn (List.mem_of_elem_eq_true hc)

/-- A registry union that succeeded had disjoint name sets. -/
theorem union_ok_disjoint {a b t : Tags} (h : Tags.union a b = .ok t) :
    ∀ n ∈ a.names, n ∉ b.names := by
  unfold Tags.union at h
  by_cases hc : a.names.any (fun n => b.names.contains n) = true
  · rw [if_pos hc] at h
    exact Except.noConfusion h
  · intro n hn hnb
    exact hc (List.any_eq_true.mpr ⟨n, hn, List.elem_eq_true_of_mem hnb⟩)

/-- The spec's no-raise policy: `merge` of signal sets with disjoint tag
names always succeeds (possibly with zero runs), never raising on absence
of common synchronization. -/
theorem merge_ok_of_disjoint_names {a b : SignalSet}
    (h : ∀ n ∈ a.tags.names, n ∉ b.tags.names) : ∃ c, a.merge b = .ok c := by
  unfold SignalSet.merge
  rw [union_ok_of_disjoint h]
  exact ⟨_, rfl⟩

/-- A successful `mergeAll` forces pairwise disjoint tag names along the
whole operand sequence. -/
theorem mergeAll_ok_names_pairwise :
    ∀ {acc : SignalSet} {reps : List SignalSet} {m : SignalSet},
      Inventory.mergeAll acc reps = .ok m →
      (acc :: reps).Pairwise (fun g h => ∀ n ∈ g.tags.names, n ∉ h.tags.names) := by
  intro acc reps
  induction reps generalizing acc with
  | nil =>
    intro m _
    exact List.pairwise_singleton _ _
  | cons g gs ih =>
    intro m h
    unfold Inventory.mergeAll at h
    cases hm : acc.merge g with
    | error e =>
      rw [hm] at h
      exact Except.noConfusion h
    | ok w =>
      rw [hm] at h
      have hw := ih h
      obtain ⟨hu, -⟩ := SignalSet.merge_eq_ok hm
      have hdisj := union_ok_disjoint hu
      have hwnames := union_ok_names hu
      obtain ⟨hw1, hw2⟩ := List.pairwise_cons.mp hw
      refine List.Pairwise.cons ?_ (List.Pairwise.cons ?_ hw2)
      · intro h' hh' n hn
        rcases List.mem_cons.mp hh' with rfl | hh2
        · exact hdisj n hn
        · exact hw1 h' hh2 n (by rw [hwnames]; exact List.mem_append_left _ hn)
      · intro h' hh' n hn
        exact hw1 h' hh' n (by rw [hwnames]; exact List.mem_append_right _ hn)

/-- Positional correspondence transports membership to the right. -/
theorem forall2_mem_right {α β : Type} {R : α → β → Prop} :
    ∀ {l1 : List α} {l2 : List β}, List.Forall₂ R l1 l2 →
      ∀ b ∈ l2, ∃ a ∈ l1, R a b := by
  intro l1 l2 hf
  induction hf with
  | nil =>
    intro b hb
    exact absurd hb (by simp)
  | cons hab _ ih =>
    intro b hb
    rcases List.mem_cons.mp hb with h1 | h2
    · exact ⟨_, by simp, h1 ▸ hab⟩
    · obtain ⟨a, ha, hr⟩ := ih b h2
      exact ⟨a, by simp [ha], hr⟩

/-- Positional correspondence pulls a pairwise relation back along it. -/
theorem pairwise_of_forall2 {α β : Type} {R : α → β → Prop} {P : β → β → Prop}
    {Q : α → α → Prop}
    (hc : ∀ a b a' b', R a b → R a' b' → P b b' → Q a a') :
    ∀ {l1 : List α} {l2 : List β}, List.Forall₂ R l1 l2 →
      l2.Pairwise P → l1.Pairwise Q := by
  intro l1 l2 hf
  induction hf with
  | nil =>
    intro _
    exact List.Pairwise.nil
  | cons hab hrest ih =>
    intro hp
    obtain ⟨hp1, hp2⟩ := List.pairwise_cons.mp hp
    refine List.Pairwise.cons ?_ (ih hp2)
    intro a' ha'
    obtain ⟨b', hb', hr'⟩ := forall2_mem_left hrest a' ha'
    exact hc _ _ _ _ hab hr' (hp1 b' hb')

/-- Two members of a pairwise-related list are equal or related. -/
theorem pairwise_mem_cases {α : Type} {R : α → α → Prop}
    (hsymm : ∀ {a b : α}, R a b → R b a) :
    ∀ {l : List α}, l.Pairwise R → ∀ {a}, a ∈ l → ∀ {b}, b ∈ l → a = b ∨ R a b := by
  intro l hp
  induction hp with
  | nil =>
    intro a ha
    exact absurd ha (by simp)
  | cons hr _ ih =>
    intro a ha b hb
    rcases List.mem_cons.mp ha with rfl | ha2
    · rcases List.mem_cons.mp hb with rfl | hb2
      · exact Or.inl rfl
      · exact Or.inr (hr b hb2)
    · rcases List.mem_cons.mp hb with rfl | hb2
      · exact Or.inr (hsymm (hr a ha2))
      · exact ih ha2 hb2

/-- Folding `merge` preserves coverage of a common aligned instant. -/
theorem mergeAll_covers :
    ∀ {acc : SignalSet} {reps : List SignalSet} {m : SignalSet} {ρ t : ℚ},
      Inventory.mergeAll acc reps = .ok m →
      coversRT acc ρ t → (∀ g ∈ reps, coversRT g ρ t) → coversRT m ρ t := by
  intro acc reps
  induction reps generalizing acc with
  | nil =>
    intro m ρ t h hacc _
    exact (Except.ok.inj h) ▸ hacc
  | cons g gs ih =>
    intro m ρ t h hacc hgs
    unfold Inventory.mergeAll at h
    cases hm : acc.merge g with
    | error e =>
      rw [hm] at h
      exact Except.noConfusion h
    | ok w =>
      rw [hm] at h
      refine ih h ?_ (fun g' hg' => hgs g' (by simp [hg']))
      obtain ⟨ra, hra, hrta, ha0, ha1, hala⟩ := hacc
      obtain ⟨rb, hrb, hrtb, hb0, hb1, halb⟩ := hgs g (by simp)
      have hrate : ra.sampling_rate = rb.sampling_rate := by rw [hrta, hrtb]
      obtain ⟨z, hint, hzr, hz0, hz1, hzal⟩ :=
        SyncSignal.intersect_covers hrate hala halb ha0 ha1 hb0 hb1
      exact ⟨z, (SignalSet.merge_run_mem hm).mpr ⟨ra, hra, rb, hrb, hint⟩,
        by rw [hzr, hrta], hz0, hz1, hzal⟩

/-- Destructuring of any non-erroring `pack`. -/
theorem pack_ok_cases {I : Inventory} {o : Option SignalSet} (h : I.pack = .ok o) :
    (Inventory.groupByTags I.signalsets = [] ∧ o = none) ∨
    ∃ r0 rs m, Inventory.joinGroups (Inventory.groupByTags I.signalsets) = .ok (r0 :: rs) ∧
      Inventory.mergeAll r0 rs = .ok m ∧
      o = (if m.signals.isEmpty then none else some m) := by
  unfold Inventory.pack at h
  cases hj : Inventory.joinGroups (Inventory.groupByTags I.signalsets) with
  | error e =>
    rw [hj] at h
    exact Except.noConfusion h
  | ok reps =>
    rw [hj] at h
    cases reps with
    | nil =>
      left
      exact ⟨List.forall₂_nil_right_iff.mp (joinGroups_ok_forall hj),
        (Except.ok.inj h).symm⟩
    | cons r0 rs =>
      right
      have h2 : (match Inventory.mergeAll r0 rs with
          | .error e => .error e
          | .ok m => .ok (if m.signals.isEmpty then none else some m)) =
          (.ok o : Except SigError (Option SignalSet)) := h
      cases hm : Inventory.mergeAll r0 rs with
      | error e =>
        rw [hm] at h2
        exact Except.noConfusion h2
      | ok m =>
        rw [hm] at h2
        exact ⟨r0, rs, m, rfl, hm, (Except.ok.inj h2).symm⟩

/-- A `pack` that produced a `SignalSet` certifies a common
synchronization: one rate and one instant covered by every contained tag. -/
theorem pack_some_commonSync {I : Inventory} {S : SignalSet}
    (hS : I.pack = .ok (some S)) : CommonSync I := by
  obtain ⟨r0, rs, hjg, hma, hnempty⟩ := pack_eq_some hS
  have hfa := joinGroups_ok_forall hjg
  cases hsig : S.signals with
  | nil => exact absurd hsig hnempty
  | cons r rest =>
    refine ⟨r.sampling_rate, r.start, ?_⟩
    intro n hn
    obtain ⟨lnames, hlmem, hnin⟩ := List.mem_flatten.mp hn
    obtain ⟨m0, hm0, rfl⟩ := List.mem_map.mp hlmem
    have hm0f : m0 ∈ (Inventory.groupByTags I.signalsets).flatten :=
      (groupByTags_flatten _).mem_iff.mpr hm0
    obtain ⟨g, hg, hm0g⟩ := List.mem_flatten.mp hm0f
    obtain ⟨rep, hrep, hjoing⟩ := forall2_mem_left hfa g hg
    have hrS : r ∈ S.signals := by rw [hsig]; simp
    obtain ⟨⟨ra, hra, hrt0, h00, h1a0, hney⟩, hrest2⟩ := mergeAll_run_origin hma r hrS
    have hreps : ∀ rep' ∈ r0 :: rs, ∃ rg ∈ rep'.signals,
        r.sampling_rate = rg.sampling_rate ∧ rg.start ≤ r.start ∧ r.stopT ≤ rg.stopT := by
      intro rep' hrep'
      rcases List.mem_cons.mp hrep' with h1 | h2
      · exact ⟨ra, h1 ▸ hra, hrt0, h00, h1a0⟩
      · exact hrest2 rep' h2
    obtain ⟨rg, hrg, hrgrate, hrg0, hrg1⟩ := hreps rep hrep
    obtain ⟨huni, hperm⟩ := joinGroup_ok_facts hjoing
    have hrgf : rg ∈ (g.map SignalSet.signals).flatten := hperm.mem_iff.mp hrg
    obtain ⟨l2, hl2, hrgl⟩ := List.mem_flatten.mp hrgf
    obtain ⟨m', hm'g, rfl⟩ := List.mem_map.mp hl2
    have hm'sets : m' ∈ I.signalsets :=
      (groupByTags_flatten _).mem_iff.mp (List.mem_flatten.mpr ⟨g, hg, hm'g⟩)
    have htageq : m'.tags = m0.tags := (huni m' hm'g).trans (huni m0 hm0g).symm
    refine ⟨m', hm'sets, by rw [htageq]; exact hnin, rg, hrgl, hrgrate.symm, hrg0, ?_⟩
    exact le_trans hney hrg1

/-- Under grid alignment, a common synchronization forces `pack` to return
a `SignalSet`. -/
theorem commonSync_pack_some {I : Inventory} {o : Option SignalSet}
    (hpack : I.pack = .ok o)
    (hne : I.signalsets ≠ [])
    (htag : ∀ m ∈ I.signalsets, m.tags.entries ≠ [])
    (halign : ∀ m ∈ I.signalsets, ∀ r ∈ m.signals, Aligned r)
    (hcs : CommonSync I) : ∃ S, o = some S := by
  obtain ⟨ρ, t, hcov⟩ := hcs
  rcases pack_ok_cases hpack with ⟨hgnil, -⟩ | ⟨r0, rs, m, hjg, hma, ho⟩
  · exfalso
    have hp := groupByTags_flatten I.signalsets
    rw [hgnil] at hp
    exact hne hp.symm.eq_nil
  · have hfa := joinGroups_ok_forall hjg
    have hpw_reps := mergeAll_ok_names_pairwise hma
    have hpw_g : (Inventory.groupByTags I.signalsets).Pairwise
        (fun g g' => ∀ n, (∃ m2 ∈ g, n ∈ m2.tags.names) →
          ¬ ∃ m3 ∈ g', n ∈ m3.tags.names) := by
      refine pairwise_of_forall2 ?_ hfa hpw_reps
      intro g rep g' rep' hgr hgr' hP n hng hng'
      exact hP n ((joinGroup_names_iff hgr n).mp hng) ((joinGroup_names_iff hgr' n).mp hng')
    have hcover_groups : ∀ g ∈ Inventory.groupByTags I.signalsets, ∀ rep,
        Inventory.joinGroup g = .ok rep → coversRT rep ρ t := by
      intro g hg rep hrep
      cases g with
      | nil => exact Except.noConfusion hrep
      | cons m0 g' =>
        have hm0sets : m0 ∈ I.signalsets :=
          (groupByTags_flatten _).mem_iff.mp (List.mem_flatten.mpr ⟨m0 :: g', hg, by simp⟩)
        cases hname : m0.tags.entries with
        | nil => exact absurd hname (htag m0 hm0sets)
        | cons p ps =>
          have hnm0 : p.1 ∈ m0.tags.names := by
            unfold Tags.names
            rw [hname]
            exact List.mem_map_of_mem _ (by simp)
          have hninv : p.1 ∈ inventoryTagNames I :=
            List.mem_flatten.mpr ⟨m0.tags.names,
              List.mem_map_of_mem _ hm0sets, hnm0⟩
          obtain ⟨m', hm', hnin', r', hr', hrt', h0', h1'⟩ := hcov p.1 hninv
          obtain ⟨g2, hg2, hm'g2⟩ :=
            List.mem_flatten.mp ((groupByTags_flatten _).mem_iff.mpr hm')
          have hsymmQ : ∀ {u v : List SignalSet},
              (∀ n, (∃ m2 ∈ u, n ∈ m2.tags.names) → ¬ ∃ m3 ∈ v, n ∈ m3.tags.names) →
              ∀ n, (∃ m2 ∈ v, n ∈ m2.tags.names) → ¬ ∃ m3 ∈ u, n ∈ m3.tags.names :=
            fun hQ n hnv hnu => hQ n hnu hnv
          rcases pairwise_mem_cases (fun hQ => hsymmQ hQ) hpw_g hg hg2 with heq | hQ
          · have hm'g : m' ∈ m0 :: g' := heq ▸ hm'g2
            obtain ⟨huni, hperm⟩ := joinGroup_ok_facts hrep
            have hr'rep : r' ∈ rep.signals :=
              hperm.mem_iff.mpr (List.mem_flatten.mpr
                ⟨m'.signals, List.mem_map_of_mem _ hm'g, hr'⟩)
            exact ⟨r', hr'rep, hrt', h0', h1', halign m' hm' r' hr'⟩
          · exact absurd ⟨m', hm'g2, hnin'⟩ (hQ p.1 ⟨m0, by simp, hnm0⟩)
    have hallcov : ∀ rep ∈ r0 :: rs, coversRT rep ρ t := by
      intro rep hrep
      obtain ⟨g, hgmem, hgr⟩ := forall2_mem_right hfa rep hrep
      exact hcover_groups g hgmem rep hgr
    have hr0cov : coversRT r0 ρ t := hallcov r0 (by simp)
    have hrscov : ∀ rep ∈ rs, coversRT rep ρ t :=
      fun rep hrep => hallcov rep (by simp [hrep])
    have hmcov : coversRT m ρ t := mergeAll_covers hma hr0cov hrscov
    obtain ⟨rm, hrm, -⟩ := hmcov
    have hmsne : m.signals.isEmpty = false := by
      cases hsig : m.signals with
      | nil =>
        rw [hsig] at hrm
        exact absurd hrm (by simp)
      | cons a b => rfl
    refine ⟨m, ?_⟩
    rw [ho, hmsne]
    simp

/-- C2: under grid alignment (true of the walkthrough data), `pack` over a
non-empty inventory returns nothing exactly when no rate and instant is
covered by every contained tag simultaneously; and `merge` never raises on
absence of common synchronization — disjoint-name operands always merge
successfully, a zero-run result being legitimate. -/
theorem C2_pack_none_iff_no_common_sync (I : Inventory) (o : Option SignalSet)
    (hne : I.signalsets ≠ [])
    (htag : ∀ m ∈ I.signalsets, m.tags.entries ≠ [])
    (halign : ∀ m ∈ I.signalsets, ∀ r ∈ m.signals, Aligned r)
    (hpack : I.pack = .ok o) :
    (o = none ↔ ¬ CommonSync I) ∧
    (∀ a b : SignalSet, (∀ n ∈ a.tags.names, n ∉ b.tags.names) →
      ∃ c, a.merge b = .ok c) := by
  refine ⟨⟨?_, ?_⟩, fun a b hd => merge_ok_of_disjoint_names hd⟩
  · intro ho hcs
    obtain ⟨S, hS⟩ := commonSync_pack_some hpack hne htag halign hcs
    rw [ho] at hS
    exact Option.noConfusion hS
  · intro hncs
    cases ho : o with
    | none => rfl
    | some S =>
      rw [ho] at hpack
      exact absurd (pack_some_commonSync hpack) hncs

/-- Witness for C2 at the site-3 sub-inventory (which packs to a
`SignalSet`, certifying its common synchronization). -/
theorem C2_witness :
    (some packed3 = none ↔ ¬ CommonSync inv3) ∧
    (∀ a b : SignalSet, (∀ n ∈ a.tags.names, n ∉ b.tags.names) →
      ∃ c, a.merge b = .ok c) :=
  C2_pack_none_iff_no_common_sync inv3 (some packed3) (by simp [inv3])
    (by decide) (by decide) rfl

end Razorback

end
